import Mathlib

/-!
# goa `rest/design/root.go`

A shallow embedding of the root expression of the HTTP design package
(`RootExpr`, its three lookups, `ResourceFor` and `ExtractWildcards`)
together with the properties its specification states about it.

Go pointers are modelled as optional addresses into typed heaps of cells
(one list of cells per pointee type, a fresh cell is appended at the end),
and a nil dereference is an explicit `Panic` result.
-/

namespace Goa

/-! ## Memory model -/

/-- A Go pointer: `none` is nil, `some a` is the address of a heap cell. -/
abbrev Ptr := Option Nat

/-- Run-time failures of the embedded code. -/
inductive Panic where
  /-- Dereference of a nil pointer. -/
  | nilDereference
  /-- Dereference of an address no cell was ever allocated at (never a Go state). -/
  | invalidAddress
  /-- Slice index out of range. -/
  | indexOutOfRange
  deriving DecidableEq, Repr

/-- Result of a Go call that may panic. -/
abbrev Result (α : Type) := Except Panic α

deriving instance DecidableEq for Except

/-- Pointer dereference `*p` in a heap of cells. -/
def deref {α : Type} (cells : List α) (p : Ptr) : Result α :=
  match p with
  | none => .error .nilDereference
  | some a =>
    match cells[a]? with
    | some v => .ok v
    | none => .error .invalidAddress

/-! ## Data model -/

/-- Modelled from the spec: the `design.ServiceExpr` type declaration, which lives in
another package. A service descriptor exposes a stable name and an ordered sequence of
endpoint descriptors (pointers to `design.EndpointExpr`, never dereferenced here). -/
structure ServiceExpr where
  Name : String
  Endpoints : List Ptr
  deriving DecidableEq, Repr

/-- Modelled from the spec: the `ActionExpr` type declaration, absent from this file.
An action wraps an endpoint descriptor and keeps a back-reference to its resource;
the two fields are those `ResourceFor` initialises. -/
structure ActionExpr where
  EndpointExpr : Ptr
  Resource : Ptr
  deriving DecidableEq, Repr

/-- Modelled from the spec: the `ResourceExpr` type declaration, absent from this file.
A resource embeds a pointer to the service descriptor it wraps (so `res.Name` is the
name of that service) and owns the ordered sequence of its actions. -/
structure ResourceExpr where
  ServiceExpr : Ptr
  Actions : List Ptr
  deriving DecidableEq, Repr

/-- Modelled from the spec: the `HTTPResponseExpr` type declaration, absent from this
file. A response is a named value; `Status` stands for the rest of its content. -/
structure HTTPResponseExpr where
  Name : String
  Status : Nat
  deriving DecidableEq, Repr

/-- The type `APIScheme string`. -/
abbrev APIScheme := String

/-- The struct `RootExpr`. `Params`, `Consumes` and `Produces` point to cells of types
declared elsewhere that no function of this file reads. -/
structure RootExpr where
  Path : String
  Params : Ptr
  Schemes : List APIScheme
  Consumes : List Ptr
  Produces : List Ptr
  Resources : List Ptr
  Responses : List Ptr
  DefaultResponses : List Ptr
  deriving DecidableEq, Repr

/-- The typed heaps the pointers of the design point into. -/
structure Heap where
  services : List ServiceExpr
  responses : List HTTPResponseExpr
  resources : List ResourceExpr
  actions : List ActionExpr
  deriving DecidableEq, Repr

/-- A program state: the heap and the root expression `*r`. -/
structure State where
  heap : Heap
  root : RootExpr
  deriving DecidableEq, Repr

/-- The value `Root = &RootExpr{}` built on process initialization. -/
def Root : RootExpr :=
  { Path := "", Params := none, Schemes := [], Consumes := [], Produces := [],
    Resources := [], Responses := [], DefaultResponses := [] }

/-- The state on process initialization: no resource or action cell is allocated yet;
the service and response cells are those the DSL engine owns. -/
def initState (services : List ServiceExpr) (responses : List HTTPResponseExpr) : State :=
  { heap := { services := services, responses := responses, resources := [], actions := [] },
    root := Root }

/-! ## Lookups -/

/-- The field read `resp.Name` through a `*HTTPResponseExpr`. -/
def respName (h : Heap) (p : Ptr) : Result String :=
  match deref h.responses p with
  | .ok v => .ok v.Name
  | .error e => .error e

/-- The field read `res.Name` through a `*ResourceExpr`: the name is promoted from the
embedded `*design.ServiceExpr`, so two pointers are followed. -/
def resName (h : Heap) (p : Ptr) : Result String :=
  match deref h.resources p with
  | .error e => .error e
  | .ok res =>
    match deref h.services res.ServiceExpr with
    | .ok svc => .ok svc.Name
    | .error e => .error e

/-- The loop shared by `Response`, `DefaultResponse` and `Resource`:
`for _, x := range xs { if x.Name == name { return x } }; return nil`. -/
def rangeByName (nameOf : Ptr → Result String) (name : String) : List Ptr → Result Ptr
  | [] => .ok none
  | p :: ps =>
    match nameOf p with
    | .error e => .error e
    | .ok n => if n = name then .ok p else rangeByName nameOf name ps

/-- Response returns the response with the given name if any. -/
def RootExpr.Response (st : State) (name : String) : Result Ptr :=
  rangeByName (respName st.heap) name st.root.Responses

/-- DefaultResponse returns the default response with the given name if any. -/
def RootExpr.DefaultResponse (st : State) (name : String) : Result Ptr :=
  rangeByName (respName st.heap) name st.root.DefaultResponses

/-- Resource returns the resource with the given name if any. -/
def RootExpr.Resource (st : State) (name : String) : Result Ptr :=
  rangeByName (resName st.heap) name st.root.Resources

/-! ## ResourceFor -/

/-- The assignment `res.Actions[i] = a` through the pointer `res`. -/
def setAction (res i : Nat) (a : Ptr) (h : Heap) : Heap :=
  { h with resources :=
      h.resources.modify (fun r => { r with Actions := r.Actions.set i a }) res }

/-- The loop `for i, e := range s.Endpoints { res.Actions[i] = &ActionExpr{...} }`,
entered at index `i` with the endpoints still to visit. -/
def actionsLoop (res : Nat) : Nat → List Ptr → Heap → Heap
  | _, [], h => h
  | i, e :: es, h =>
    let a := h.actions.length
    let h1 := { h with actions := h.actions ++ [{ EndpointExpr := e, Resource := some res }] }
    actionsLoop res (i + 1) es (setAction res i (some a) h1)

/-- ResourceFor creates a new or returns the existing resource definition for the
given service. The result is the returned pointer and the state after the call. -/
def RootExpr.ResourceFor (st : State) (s : Ptr) : Result (Ptr × State) :=
  match deref st.heap.services s with
  | .error e => .error e
  | .ok svc =>
    match RootExpr.Resource st svc.Name with
    | .error e => .error e
    | .ok (some a) => .ok (some a, st)
    | .ok none =>
      let res := st.heap.resources.length
      let h1 := { st.heap with resources := st.heap.resources ++
        [{ ServiceExpr := s, Actions := List.replicate svc.Endpoints.length none }] }
      let h2 := actionsLoop res 0 svc.Endpoints h1
      .ok (some res, { heap := h2,
                       root := { st.root with Resources := st.root.Resources ++ [some res] } })

/-! ## Regular expressions

The fragment of Go `regexp` syntax the package uses, with the matching rule the
library documents: a match begins as early as possible in the input, and among the
matches that begin there the one a backtracking search finds first is chosen.
-/

/-- Regular expression syntax trees. -/
inductive Regex where
  /-- A literal character. -/
  | lit (c : Char)
  /-- A character class, given by its membership test. -/
  | cls (p : Char → Bool)
  /-- Concatenation. -/
  | cat (a b : Regex)
  /-- Alternation, the left branch preferred. -/
  | alt (a b : Regex)
  /-- Greedy one-or-more repetition. -/
  | plus (a : Regex)
  /-- Capturing group number `i`. -/
  | cap (i : Nat) (a : Regex)

/-- Capture bindings: group number and captured text, latest binding first. -/
abbrev Caps := List (Nat × List Char)

/-- A thread of the backtracking search: the input still to read and the captures. -/
abbrev Thread := List Char × Caps

/-- Greedy repetition: after one iteration, first try further iterations (only when
the iteration consumed input), then stop. -/
def plusLoop (step : List Char → Caps → List Thread) : Nat → List Char → Caps → List Thread
  | 0, _, _ => []
  | n + 1, s, g =>
    (step s g).flatMap (fun t =>
      (if t.1.length < s.length then plusLoop step n t.1 t.2 else []) ++ [t])

/-- All the ways `re` matches at the front of the input, in the order a backtracking
search finds them. -/
def Regex.threads : Regex → List Char → Caps → List Thread
  | .lit c => fun s g =>
    match s with
    | x :: xs => if x = c then [(xs, g)] else []
    | [] => []
  | .cls p => fun s g =>
    match s with
    | x :: xs => if p x then [(xs, g)] else []
    | [] => []
  | .cat a b => fun s g => (a.threads s g).flatMap (fun t => b.threads t.1 t.2)
  | .alt a b => fun s g => a.threads s g ++ b.threads s g
  | .plus a => fun s g => plusLoop a.threads (s.length + 1) s g
  | .cap i a => fun s g =>
    (a.threads s g).map (fun t => (t.1, (i, s.take (s.length - t.1.length)) :: g))

/-- The number of capturing groups, `NumSubexp`. -/
def Regex.numSubexp : Regex → Nat
  | .lit _ => 0
  | .cls _ => 0
  | .cat a b => a.numSubexp + b.numSubexp
  | .alt a b => a.numSubexp + b.numSubexp
  | .plus a => a.numSubexp
  | .cap _ a => a.numSubexp + 1

/-- The leftmost match at or after the current position: the input from the start
of the match, and the preferred thread there. -/
def Regex.search (re : Regex) : List Char → Option (List Char × Thread)
  | [] => ((re.threads [] []).head?).map (fun t => ([], t))
  | c :: cs =>
    match (re.threads (c :: cs) []).head? with
    | some t => some (c :: cs, t)
    | none => re.search cs

/-- The text of group `i` of a match; the empty string when the group took no part. -/
def groupText (g : Caps) (i : Nat) : String :=
  match g.lookup i with
  | some w => String.mk w
  | none => ""

/-- The strings of one match: the whole match, then the groups `1..NumSubexp`. -/
def submatch (re : Regex) (start : List Char) (t : Thread) : List String :=
  String.mk (start.take (start.length - t.1.length)) ::
    (List.range re.numSubexp).map (fun j => groupText t.2 (j + 1))

/-- The loop of `allMatches`: successive non-overlapping matches from the current
position on; `prev` is the end of the previous match, as the length of the input
left there. An empty match right after the previous match is skipped, and after any
empty match the position moves on by one character. -/
def allMatches (re : Regex) : Nat → List Char → Option Nat → List (List String)
  | 0, _, _ => []
  | fuel + 1, s, prev =>
    match re.search s with
    | none => []
    | some (start, t) =>
      if t.1.length = s.length then
        let out := if some start.length = prev then [] else [submatch re start t]
        match s with
        | [] => out
        | _ :: xs => out ++ allMatches re fuel xs (some t.1.length)
      else
        submatch re start t :: allMatches re fuel t.1 (some t.1.length)

/-- The method `FindAllStringSubmatch(s, -1)`. -/
def Regex.FindAllStringSubmatch (re : Regex) (s : String) : List (List String) :=
  allMatches re (s.data.length + 1) s.data none

/-! ## ExtractWildcards -/

/-- The class `[a-zA-Z0-9_]`. -/
def isIdentChar (c : Char) : Bool :=
  (decide ('a' ≤ c) && decide (c ≤ 'z')) || (decide ('A' ≤ c) && decide (c ≤ 'Z')) ||
    (decide ('0' ≤ c) && decide (c ≤ '9')) || c == '_'

/-- WildcardRegex is the regular expression used to capture path parameters:
`/(?::|\*)([a-zA-Z0-9_]+)`. -/
def WildcardRegex : Regex :=
  .cat (.lit '/') (.cat (.alt (.lit ':') (.lit '*')) (.cap 1 (.plus (.cls isIdentChar))))

/-- The loop `for i, m := range matches { wcs[i] = m[1] }`. -/
def wcsLoop : List (List String) → Result (List String)
  | [] => .ok []
  | m :: ms =>
    match m[1]? with
    | none => .error .indexOutOfRange
    | some w =>
      match wcsLoop ms with
      | .ok ws => .ok (w :: ws)
      | .error e => .error e

/-- ExtractWildcards returns the names of the wildcards that appear in path. -/
def ExtractWildcards (path : String) : Result (List String) :=
  wcsLoop (WildcardRegex.FindAllStringSubmatch path)

/-! ## Validity of the pointers held by the root

Go pointers are nil or point to a live cell. The lookups dereference every element
they visit, so they are specified on roots whose sequences hold live pointers.
-/

/-- Every pointer of `ps` points to a response cell. -/
def responsesValid (h : Heap) (ps : List Ptr) : Bool :=
  ps.all (fun p => (respName h p).isOk)

/-- Every element of `Resources` points to a resource cell whose embedded service
pointer points to a service cell. -/
def resourcesValid (st : State) : Bool :=
  st.root.Resources.all (fun p => (resName st.heap p).isOk)

/-- The pointer `p` is the first element of `ps` named `name`. -/
def FirstNamed (nameOf : Ptr → Result String) (name : String) (ps : List Ptr) (p : Ptr) :
    Prop :=
  ∃ i : Nat, ps[i]? = some p ∧ nameOf p = .ok name ∧
    ∀ j : Nat, j < i → ∀ q, ps[j]? = some q → nameOf q ≠ .ok name

/-- Modelled from the spec: registration of a custom response, done by the DSL engine
outside this file: the response pointer is appended to `Responses`. -/
def registerResponse (st : State) (v : Ptr) : State :=
  { st with root := { st.root with Responses := st.root.Responses ++ [v] } }

/-- Modelled from the spec: registration of a built-in default response, done by the
DSL engine outside this file: the response pointer is appended to `DefaultResponses`. -/
def registerDefaultResponse (st : State) (v : Ptr) : State :=
  { st with root := { st.root with DefaultResponses := st.root.DefaultResponses ++ [v] } }

/-- The slice `acts` after the `m` writes `acts[i] = &cell(base)`,
`acts[i+1] = &cell(base+1)`, ... of the loop of `ResourceFor`. -/
def writeRun : List Ptr → Nat → Nat → Nat → List Ptr
  | acts, _, _, 0 => acts
  | acts, i, base, m + 1 => writeRun (acts.set i (some base)) (i + 1) (base + 1) m

/-- No two elements of `Resources` have the same service name. -/
def namesDistinct (st : State) : Prop :=
  st.root.Resources.Pairwise (fun p q => resName st.heap p ≠ resName st.heap q)

/-- The states reached from the initial one by calls of `ResourceFor` that return. -/
inductive Reachable : State → Prop where
  | init (services : List ServiceExpr) (responses : List HTTPResponseExpr) :
      Reachable (initState services responses)
  | call (st st1 : State) (s p : Ptr) :
      Reachable st → RootExpr.ResourceFor st s = .ok (p, st1) → Reachable st1

/-- The state after a call of `ResourceFor` that finds no resource of the name. -/
def stateAfterCreate (st : State) (s : Ptr) (svc : ServiceExpr) : State :=
  { heap :=
      { services := st.heap.services, responses := st.heap.responses,
        resources := st.heap.resources ++
          [{ ServiceExpr := s,
             Actions := (List.range svc.Endpoints.length).map
               (fun k => some (st.heap.actions.length + k)) }],
        actions := st.heap.actions ++ svc.Endpoints.map
          (fun e => { EndpointExpr := e, Resource := some st.heap.resources.length }) },
    root := { st.root with Resources := st.root.Resources ++ [some st.heap.resources.length] } }

/-! ## Reference definition of wildcard extraction

The definition follows the words of the specification, position by position.
-/

/-- Position `i` introduces a parameter: `path[i]` is a slash, `path[i+1]` is a colon
or a star, and `path[i+2]` is an identifier character. -/
def isParamAt (p : List Char) (i : Nat) : Bool :=
  p[i]? == some '/' && (p[i + 1]? == some ':' || p[i + 1]? == some '*') &&
    (match p[i + 2]? with
     | some c => isIdentChar c
     | none => false)

/-- The name extracted at position `i`: the maximal run of identifier characters
starting at `i + 2`. -/
def nameAt (p : List Char) (i : Nat) : String :=
  String.mk ((p.drop (i + 2)).takeWhile isIdentChar)

/-- The positions that introduce a parameter, in increasing order. -/
def paramPositions (p : List Char) : List Nat :=
  (List.range p.length).filter (isParamAt p)

/-- The reference result: the names at the parameter positions, in that order. -/
def wildcardsSpec (path : String) : List String :=
  (paramPositions path.data).map (nameAt path.data)

/-- The input begins with a parameter. -/
def startsParam : List Char → Bool
  | c :: d :: x :: _ => c == '/' && (d == ':' || d == '*') && isIdentChar x
  | _ => false

/-- The reference result computed along the suffixes of the input. -/
def specFrom : List Char → List String
  | [] => []
  | c :: cs =>
    (if startsParam (c :: cs) then [String.mk ((cs.drop 1).takeWhile isIdentChar)] else []) ++
      specFrom cs

/-- The path made of the segments `/` + delimiter + name, in the order of the list. -/
def segmentsPath : List (Char × String) → String
  | [] => ""
  | seg :: segs => "/" ++ String.singleton seg.1 ++ seg.2 ++ segmentsPath segs

/-! ## Slice values

The result of `ExtractWildcards` with its slice header, to tell the nil slice from an
allocated slice without elements.
-/

/-- A Go slice value: the nil slice, or a slice over an allocated backing array that
holds `elems` (possibly none). -/
inductive Slice (α : Type) where
  | nil
  | array (elems : List α)
  deriving DecidableEq, Repr

/-- The elements of a slice. -/
def Slice.elems {α : Type} : Slice α → List α
  | .nil => []
  | .array l => l

/-- The builtin `len`. -/
def Slice.len {α : Type} (s : Slice α) : Nat := s.elems.length

/-- The assignment `s[i] = v` on an index in range. -/
def Slice.set {α : Type} : Slice α → Nat → α → Slice α
  | .nil, _, _ => .nil
  | .array l, i, v => .array (l.set i v)

/-- The builtin `make([]string, n)`: an allocated slice of `n` empty strings, never
the nil slice. -/
def makeStrings (n : Nat) : Slice String := .array (List.replicate n "")

/-- The value `FindAllStringSubmatch(s, -1)` returns: the nil slice when there is no
match. -/
def Regex.FindAllStringSubmatchSlice (re : Regex) (s : String) : Slice (List String) :=
  match re.FindAllStringSubmatch s with
  | [] => .nil
  | m :: ms => .array (m :: ms)

/-- The loop `for i, m := range matches { wcs[i] = m[1] }` on the slice `wcs`,
entered at index `i` with the matches still to visit. -/
def wcsWrite : Nat → List (List String) → Slice String → Result (Slice String)
  | _, [], wcs => .ok wcs
  | i, m :: ms, wcs =>
    match m[1]? with
    | none => .error .indexOutOfRange
    | some w =>
      if i < wcs.len then wcsWrite (i + 1) ms (wcs.set i w) else .error .indexOutOfRange

/-- ExtractWildcards with the slice header of its result:
`wcs := make([]string, len(matches))`, the loop, `return wcs`. -/
def ExtractWildcards.slice (path : String) : Result (Slice String) :=
  let found := WildcardRegex.FindAllStringSubmatchSlice path
  wcsWrite 0 found.elems (makeStrings found.len)

/-! ## Sequences of calls -/

/-- The calls `ResourceFor(s)` for the services of `ss`, in order; the result is the
state after the last call. -/
def callAll : State → List Ptr → Result State
  | st, [] => .ok st
  | st, s :: ss =>
    match RootExpr.ResourceFor st s with
    | .ok (_, st1) => callAll st1 ss
    | .error e => .error e

/-- The field read `s.Name` through a `*design.ServiceExpr`. -/
def svcName (services : List ServiceExpr) (s : Ptr) : Result String :=
  match deref services s with
  | .ok svc => .ok svc.Name
  | .error e => .error e

/-- The service pointer embedded in the resource `p` points to; nil when `p` is not
live. -/
def wrappedOf (h : Heap) (p : Ptr) : Ptr :=
  match deref h.resources p with
  | .ok r => r.ServiceExpr
  | .error _ => none

/-- A list with the later repeats of every element removed: the first occurrences,
in order. -/
def firstOccurrences {α : Type} [DecidableEq α] : List α → List α
  | [] => []
  | n :: ns => n :: (firstOccurrences ns).filter (fun m => decide (m ≠ n))

/-- The elements of `ss` that are the first of their key in `ss`, in order. -/
def firstOfKey {κ : Type} [DecidableEq κ] (key : Ptr → κ) : List Ptr → List Ptr
  | [] => []
  | s :: ss => s :: (firstOfKey key ss).filter (fun t => decide (key t ≠ key s))

/-! ## Sample states -/

/-- A state with three registered responses, two of them named `x`, and one default
response named `d`. -/
def sampleResponses : State :=
  { heap := { services := [], resources := [], actions := [],
              responses := [⟨"ok", 200⟩, ⟨"x", 404⟩, ⟨"x", 500⟩, ⟨"d", 400⟩] },
    root := { Root with Responses := [some 0, some 1], DefaultResponses := [some 3] } }

/-- The sample state with another sequence of default responses. -/
def sampleResponsesAlt : State :=
  { sampleResponses with
    root := { sampleResponses.root with DefaultResponses := [some 1, some 0] } }

/-- Three service descriptors, the first two of the same name. -/
def sampleServices : List ServiceExpr :=
  [⟨"x", []⟩, ⟨"x", [some 7]⟩, ⟨"y", [some 8, some 9]⟩]

/-- The initial state over the sample services. -/
def sampleInit : State := initState sampleServices []

/-- The state after `ResourceFor` was called once, on the first sample service. -/
def sampleOne : State :=
  { heap := { services := sampleServices, responses := [],
              resources := [⟨some 0, []⟩], actions := [] },
    root := { Root with Resources := [some 0] } }

/-- A state with a path, a scheme, responses of both kinds and one resource. -/
def sampleFull : State :=
  { heap := { services := sampleServices, responses := [⟨"ok", 200⟩, ⟨"nf", 404⟩],
              resources := [⟨some 0, []⟩], actions := [] },
    root := { Root with Path := "/api", Schemes := ["http"], Responses := [some 0],
                        DefaultResponses := [some 1], Resources := [some 0] } }

/-! # Properties -/

/-! ## Lemmas on the lookup loop -/

theorem isOk_iff {α : Type} (x : Result α) : x.isOk = true ↔ ∃ v, x = .ok v := by
  cases x <;> simp [Except.isOk, Except.toBool]

theorem respName_nil (h : Heap) (n : String) : respName h none ≠ .ok n := by
  simp [respName, deref]

theorem resName_nil (h : Heap) (n : String) : resName h none ≠ .ok n := by
  simp [resName, deref]

/-- On live pointers the loop either visits everything and returns nil, or returns
the first element with the name. -/
theorem rangeByName_cases (nameOf : Ptr → Result String) (name : String) (ps : List Ptr)
    (hv : ∀ p ∈ ps, ∃ n, nameOf p = .ok n) :
    (rangeByName nameOf name ps = .ok none ∧ ∀ q ∈ ps, nameOf q ≠ .ok name) ∨
    (∃ p, rangeByName nameOf name ps = .ok p ∧ FirstNamed nameOf name ps p) := by
  induction ps with
  | nil => left; simp [rangeByName]
  | cons p ps ih =>
    obtain ⟨n, hn⟩ := hv p (by simp)
    have hv' : ∀ q ∈ ps, ∃ n, nameOf q = .ok n := fun q hq => hv q (by simp [hq])
    by_cases hname : n = name
    · right
      refine ⟨p, by simp [rangeByName, hn, hname], 0, by simp, by rw [hn, hname], ?_⟩
      intro j hj; omega
    · rcases ih hv' with ⟨h1, h2⟩ | ⟨r, h1, i, h2, h3, h4⟩
      · left
        refine ⟨by simp [rangeByName, hn, hname, h1], ?_⟩
        intro q hq
        rcases List.mem_cons.1 hq with rfl | hq
        · rw [hn]; intro hc; exact hname (Except.ok.inj hc)
        · exact h2 q hq
      · right
        refine ⟨r, by simp [rangeByName, hn, hname, h1], i + 1, by simpa using h2, h3, ?_⟩
        intro j hj q hq
        cases j with
        | zero =>
          simp at hq; subst hq
          rw [hn]; intro hc; exact hname (Except.ok.inj hc)
        | succ j => exact h4 j (by omega) q (by simpa using hq)

/-- Elements that are live and carry another name are skipped. -/
theorem rangeByName_append_skip (nameOf : Ptr → Result String) (name : String)
    (ps qs : List Ptr) (hs : ∀ p ∈ ps, ∃ n, nameOf p = .ok n ∧ n ≠ name) :
    rangeByName nameOf name (ps ++ qs) = rangeByName nameOf name qs := by
  induction ps with
  | nil => rfl
  | cons p ps ih =>
    obtain ⟨n, hn, hne⟩ := hs p (by simp)
    simp only [List.cons_append, rangeByName, hn, hne, if_false]
    exact ih (fun q hq => hs q (by simp [hq]))

theorem responsesValid_iff (h : Heap) (ps : List Ptr) :
    responsesValid h ps = true ↔ ∀ p ∈ ps, ∃ n, respName h p = .ok n := by
  simp [responsesValid, List.all_eq_true, isOk_iff]

theorem resourcesValid_iff (st : State) :
    resourcesValid st = true ↔ ∀ p ∈ st.root.Resources, ∃ n, resName st.heap p = .ok n := by
  simp [resourcesValid, List.all_eq_true, isOk_iff]

/-- A found pointer is never nil. -/
theorem FirstNamed_ne_nil {nameOf : Ptr → Result String} {name : String} {ps : List Ptr}
    {p : Ptr} (hnil : ∀ n, nameOf none ≠ .ok n) (h : FirstNamed nameOf name ps p) :
    ∃ a, p = some a := by
  obtain ⟨i, -, h2, -⟩ := h
  cases p with
  | none => exact absurd h2 (hnil name)
  | some a => exact ⟨a, rfl⟩

theorem FirstNamed_mem {nameOf : Ptr → Result String} {name : String} {ps : List Ptr}
    {p : Ptr} (h : FirstNamed nameOf name ps p) : p ∈ ps ∧ nameOf p = .ok name := by
  obtain ⟨i, h1, h2, -⟩ := h
  exact ⟨List.mem_iff_getElem?.2 ⟨i, h1⟩, h2⟩

/-- Once an element with the name is among the first ones, what follows is not read. -/
theorem rangeByName_append_hit (nameOf : Ptr → Result String) (name : String)
    (ps qs : List Ptr) (hv : ∀ p ∈ ps, ∃ n, nameOf p = .ok n)
    (hit : ∃ q ∈ ps, nameOf q = .ok name) :
    rangeByName nameOf name (ps ++ qs) = rangeByName nameOf name ps := by
  induction ps with
  | nil => simp at hit
  | cons p ps ih =>
    obtain ⟨n, hn⟩ := hv p (by simp)
    by_cases hname : n = name
    · simp [rangeByName, hn, hname]
    · simp only [List.cons_append, rangeByName, hn, hname, if_false]
      apply ih (fun q hq => hv q (by simp [hq]))
      obtain ⟨q, hq, hqn⟩ := hit
      rcases List.mem_cons.1 hq with rfl | hq
      · rw [hn] at hqn; exact absurd (Except.ok.inj hqn) hname
      · exact ⟨q, hq, hqn⟩

/-- The contract of the lookup loop on live pointers whose nil has no name. -/
theorem rangeByName_contract (nameOf : Ptr → Result String) (name : String) (ps : List Ptr)
    (hnil : ∀ n, nameOf none ≠ .ok n) (hv : ∀ p ∈ ps, ∃ n, nameOf p = .ok n) :
    ∃ r, rangeByName nameOf name ps = .ok r ∧
      (r = none ↔ ∀ q ∈ ps, nameOf q ≠ .ok name) ∧
      (r ≠ none → FirstNamed nameOf name ps r) := by
  rcases rangeByName_cases nameOf name ps hv with ⟨h1, h2⟩ | ⟨p, h1, h2⟩
  · exact ⟨none, h1, ⟨fun _ => h2, fun _ => rfl⟩, fun h => absurd rfl h⟩
  · obtain ⟨a, rfl⟩ := FirstNamed_ne_nil hnil h2
    refine ⟨some a, h1, ?_, fun _ => h2⟩
    constructor
    · intro h; cases h
    · intro h; exact absurd (FirstNamed_mem h2).2 (h _ (FirstNamed_mem h2).1)

/-! ## Response registry -/

/-- C6: on a root whose `Responses` hold live pointers, `Response(name)` returns a
result `r` that is nil exactly when no element of `Responses` has that name, and
otherwise is the element of lowest index whose name is `name`. -/
theorem Response_first_match (st : State) (name : String)
    (hv : responsesValid st.heap st.root.Responses = true) :
    ∃ r, RootExpr.Response st name = .ok r ∧
      (r = none ↔ ∀ q ∈ st.root.Responses, respName st.heap q ≠ .ok name) ∧
      (r ≠ none → FirstNamed (respName st.heap) name st.root.Responses r) :=
  rangeByName_contract _ name _ (respName_nil st.heap) ((responsesValid_iff _ _).1 hv)

/-- Witness of C6 on the sample state and the name `x`. -/
theorem Response_first_match_witness :
    responsesValid sampleResponses.heap sampleResponses.root.Responses = true ∧
    ∃ r, RootExpr.Response sampleResponses "x" = .ok r ∧
      (r = none ↔ ∀ q ∈ sampleResponses.root.Responses,
        respName sampleResponses.heap q ≠ .ok "x") ∧
      (r ≠ none →
        FirstNamed (respName sampleResponses.heap) "x" sampleResponses.root.Responses r) :=
  ⟨by decide, Response_first_match sampleResponses "x" (by decide)⟩

/-- C7: the two name spaces are independent. Over the same response cells, `Response`
depends on the root through `Responses` only and `DefaultResponse` through
`DefaultResponses` only; and `DefaultResponse(name)` is the first element of
`DefaultResponses` named `name`, or nil when there is none. -/
theorem Response_DefaultResponse_independent (st1 st2 : State) (name : String)
    (hcells : st1.heap.responses = st2.heap.responses)
    (hv : responsesValid st1.heap st1.root.DefaultResponses = true) :
    (st1.root.Responses = st2.root.Responses →
      RootExpr.Response st1 name = RootExpr.Response st2 name) ∧
    (st1.root.DefaultResponses = st2.root.DefaultResponses →
      RootExpr.DefaultResponse st1 name = RootExpr.DefaultResponse st2 name) ∧
    (∃ r, RootExpr.DefaultResponse st1 name = .ok r ∧
      (r = none ↔ ∀ q ∈ st1.root.DefaultResponses, respName st1.heap q ≠ .ok name) ∧
      (r ≠ none → FirstNamed (respName st1.heap) name st1.root.DefaultResponses r)) := by
  have hn : respName st1.heap = respName st2.heap := by
    funext p; simp [respName, hcells]
  refine ⟨?_, ?_, ?_⟩
  · intro h; simp [RootExpr.Response, hn, h]
  · intro h; simp [RootExpr.DefaultResponse, hn, h]
  · exact rangeByName_contract _ name _ (respName_nil st1.heap) ((responsesValid_iff _ _).1 hv)

/-- Witness of C7 on two sample states that differ in their default responses. -/
theorem Response_DefaultResponse_independent_witness :
    sampleResponses.heap.responses = sampleResponsesAlt.heap.responses ∧
    responsesValid sampleResponses.heap sampleResponses.root.DefaultResponses = true ∧
    (sampleResponses.root.Responses = sampleResponsesAlt.root.Responses →
      RootExpr.Response sampleResponses "x" = RootExpr.Response sampleResponsesAlt "x") ∧
    (sampleResponses.root.DefaultResponses = sampleResponsesAlt.root.DefaultResponses →
      RootExpr.DefaultResponse sampleResponses "x" =
        RootExpr.DefaultResponse sampleResponsesAlt "x") ∧
    (∃ r, RootExpr.DefaultResponse sampleResponses "x" = .ok r ∧
      (r = none ↔ ∀ q ∈ sampleResponses.root.DefaultResponses,
        respName sampleResponses.heap q ≠ .ok "x") ∧
      (r ≠ none → FirstNamed (respName sampleResponses.heap) "x"
        sampleResponses.root.DefaultResponses r)) :=
  ⟨by decide, by decide,
    Response_DefaultResponse_independent sampleResponses sampleResponsesAlt "x"
      (by decide) (by decide)⟩

/-- C8, as stated, fails when a response of the same name is already registered:
in the sample state, whose `Responses` hold a response named `x` at address 1,
registering the response named `x` at address 2 leaves `Response("x")` returning the
earlier one. -/
theorem Response_after_register_counterexample :
    deref sampleResponses.heap.responses (some 2) = .ok ⟨"x", 500⟩ ∧
    RootExpr.Response (registerResponse sampleResponses (some 2)) "x" = .ok (some 1) ∧
    RootExpr.Response (registerResponse sampleResponses (some 2)) "x" ≠ .ok (some 2) := by
  decide

/-- C8, amended: on a root whose `Responses` hold live pointers, for a live response
`v` named `x`: when no element of `Responses` is named `x`, `Response(x)` is nil, it
returns exactly `v` once `v` is appended to `Responses`, and it stays nil when `v` is
appended to `DefaultResponses` instead; when some element of `Responses` is already
named `x`, appending `v` does not change the result of `Response(x)`, which is the
first element of `Responses` named `x`. -/
theorem Response_after_register (st : State) (x : String) (v : Ptr) (cell : HTTPResponseExpr)
    (hv : responsesValid st.heap st.root.Responses = true)
    (hcell : deref st.heap.responses v = .ok cell) (hx : cell.Name = x) :
    ((∀ q ∈ st.root.Responses, respName st.heap q ≠ .ok x) →
      RootExpr.Response st x = .ok none ∧
      RootExpr.Response (registerResponse st v) x = .ok v ∧
      RootExpr.Response (registerDefaultResponse st v) x = .ok none) ∧
    ((∃ q ∈ st.root.Responses, respName st.heap q = .ok x) →
      RootExpr.Response (registerResponse st v) x = RootExpr.Response st x ∧
      ∃ p, RootExpr.Response st x = .ok p ∧
        FirstNamed (respName st.heap) x st.root.Responses p) := by
  have hv' := (responsesValid_iff _ _).1 hv
  have hvn : respName st.heap v = .ok x := by simp [respName, hcell, hx]
  constructor
  · intro hno
    have h0 : RootExpr.Response st x = .ok none := by
      rcases rangeByName_cases (respName st.heap) x _ hv' with ⟨h1, -⟩ | ⟨p, -, h2⟩
      · exact h1
      · exact absurd (FirstNamed_mem h2).2 (hno _ (FirstNamed_mem h2).1)
    refine ⟨h0, ?_, h0⟩
    have hskip : ∀ p ∈ st.root.Responses, ∃ n, respName st.heap p = .ok n ∧ n ≠ x := by
      intro p hp
      obtain ⟨n, hn⟩ := hv' p hp
      exact ⟨n, hn, fun hc => hno p hp (by rw [hn, hc])⟩
    show rangeByName (respName st.heap) x (st.root.Responses ++ [v]) = .ok v
    rw [rangeByName_append_skip _ _ _ _ hskip]
    simp [rangeByName, hvn]
  · intro hit
    refine ⟨rangeByName_append_hit _ _ _ _ hv' hit, ?_⟩
    rcases rangeByName_cases (respName st.heap) x _ hv' with ⟨-, h2⟩ | ⟨p, h1, h2⟩
    · obtain ⟨q, hq, hqn⟩ := hit
      exact absurd hqn (h2 q hq)
    · exact ⟨p, h1, h2⟩

/-- Witness of the amended C8: in the sample state no response is named `d`, and the
cell at address 3 is. -/
theorem Response_after_register_witness :
    responsesValid sampleResponses.heap sampleResponses.root.Responses = true ∧
    deref sampleResponses.heap.responses (some 3) = .ok ⟨"d", 400⟩ ∧
    ((∀ q ∈ sampleResponses.root.Responses, respName sampleResponses.heap q ≠ .ok "d") →
      RootExpr.Response sampleResponses "d" = .ok none ∧
      RootExpr.Response (registerResponse sampleResponses (some 3)) "d" = .ok (some 3) ∧
      RootExpr.Response (registerDefaultResponse sampleResponses (some 3)) "d" = .ok none) ∧
    ((∃ q ∈ sampleResponses.root.Responses, respName sampleResponses.heap q = .ok "d") →
      RootExpr.Response (registerResponse sampleResponses (some 3)) "d" =
        RootExpr.Response sampleResponses "d" ∧
      ∃ p, RootExpr.Response sampleResponses "d" = .ok p ∧
        FirstNamed (respName sampleResponses.heap) "d" sampleResponses.root.Responses p) :=
  ⟨by decide, by decide,
    Response_after_register sampleResponses "d" (some 3) ⟨"d", 400⟩ (by decide) (by decide) rfl⟩

/-! ## Lemmas on ResourceFor -/

theorem modify_append_last {α : Type} (f : α → α) (old : List α) (c : α) :
    (old ++ [c]).modify f old.length = old ++ [f c] := by
  induction old with
  | nil => rfl
  | cons x old ih => simp [List.modify_succ_cons, ih]

/-- The loop of `ResourceFor` on the resource allocated last: it appends one action
cell per endpoint and writes their addresses into the slice of the resource. -/
theorem actionsLoop_eq (old : List ResourceExpr) (sv : Ptr) (hs : List ServiceExpr)
    (hr : List HTTPResponseExpr) :
    ∀ (es : List Ptr) (i : Nat) (acts : List Ptr) (ha : List ActionExpr),
      actionsLoop old.length i es
        { services := hs, responses := hr,
          resources := old ++ [{ ServiceExpr := sv, Actions := acts }], actions := ha } =
      { services := hs, responses := hr,
        resources := old ++ [{ ServiceExpr := sv,
                               Actions := writeRun acts i ha.length es.length }],
        actions := ha ++ es.map (fun e => { EndpointExpr := e, Resource := some old.length }) }
  | [], i, acts, ha => by simp [actionsLoop, writeRun]
  | e :: es, i, acts, ha => by
    simp only [actionsLoop, setAction, modify_append_last]
    rw [actionsLoop_eq old sv hs hr es]
    simp [writeRun]

theorem writeRun_replicate (m : Nat) :
    ∀ (pre : List Ptr) (base : Nat),
      writeRun (pre ++ List.replicate m none) pre.length base m =
        pre ++ (List.range m).map (fun k => some (base + k)) := by
  induction m with
  | zero => intro pre base; simp [writeRun]
  | succ m ih =>
    intro pre base
    have hset : (pre ++ List.replicate (m + 1) none).set pre.length (some base) =
        (pre ++ [some base]) ++ List.replicate m none := by
      rw [List.set_append_right _ _ (le_refl _)]
      simp [List.replicate_succ]
    have hlen : pre.length + 1 = (pre ++ [some base]).length := by simp
    rw [writeRun, hset, hlen, ih (pre ++ [some base]) (base + 1)]
    simp [List.range_succ_eq_map, List.map_map, Function.comp_def]
    intro a _; omega

theorem ResourceFor_miss (st : State) (s : Ptr) (svc : ServiceExpr)
    (hs : deref st.heap.services s = .ok svc)
    (hmiss : RootExpr.Resource st svc.Name = .ok none) :
    RootExpr.ResourceFor st s = .ok (some st.heap.resources.length, stateAfterCreate st s svc) := by
  have h := actionsLoop_eq st.heap.resources s st.heap.services st.heap.responses
    svc.Endpoints 0 (List.replicate svc.Endpoints.length none) st.heap.actions
  have hw := writeRun_replicate svc.Endpoints.length [] st.heap.actions.length
  simp only [List.nil_append, List.length_nil] at hw
  rw [hw] at h
  simp only [RootExpr.ResourceFor, hs, hmiss, stateAfterCreate]
  rw [h]

theorem ResourceFor_hit (st : State) (s : Ptr) (svc : ServiceExpr) (a : Nat)
    (hs : deref st.heap.services s = .ok svc)
    (hhit : RootExpr.Resource st svc.Name = .ok (some a)) :
    RootExpr.ResourceFor st s = .ok (some a, st) := by
  simp only [RootExpr.ResourceFor, hs, hhit]

/-- Cells are never overwritten: a resource pointer that has a name keeps it when
resource cells are appended and the service cells stay. -/
theorem resName_frame (h h1 : Heap) (tl : List ResourceExpr) (p : Ptr) (n : String)
    (hsv : h1.services = h.services) (hres : h1.resources = h.resources ++ tl)
    (hn : resName h p = .ok n) : resName h1 p = .ok n := by
  cases p with
  | none => exact absurd hn (resName_nil h n)
  | some a =>
    simp only [resName, deref] at hn ⊢
    cases hc : h.resources[a]? with
    | none => simp [hc] at hn
    | some c =>
      have hlt : a < h.resources.length := by
        rcases List.getElem?_eq_some.1 hc with ⟨hlt, -⟩
        exact hlt
      rw [hres, List.getElem?_append_left hlt, hsv]
      simpa [hc] using hn

theorem resName_created (st : State) (s : Ptr) (svc : ServiceExpr)
    (hs : deref st.heap.services s = .ok svc) :
    resName (stateAfterCreate st s svc).heap (some st.heap.resources.length) = .ok svc.Name := by
  simp [resName, deref, stateAfterCreate]
  simp [deref] at hs
  cases s with
  | none => simp at hs
  | some b =>
    simp only at hs ⊢
    cases hb : st.heap.services[b]? with
    | none => simp [hb] at hs
    | some c => simp [hb] at hs ⊢; rw [hs]

theorem resName_lt (h : Heap) (a : Nat) (n : String) (hn : resName h (some a) = .ok n) :
    a < h.resources.length := by
  simp only [resName, deref] at hn
  cases hc : h.resources[a]? with
  | none => simp [hc] at hn
  | some c =>
    rcases List.getElem?_eq_some.1 hc with ⟨hlt, -⟩
    exact hlt

/-- The lookup by name seen from `ResourceFor`: nil when no resource has the name of
the service, the first resource of that name otherwise. -/
theorem Resource_cases (st : State) (name : String) (hv : resourcesValid st = true) :
    (RootExpr.Resource st name = .ok none ∧
      ∀ q ∈ st.root.Resources, resName st.heap q ≠ .ok name) ∨
    (∃ a, RootExpr.Resource st name = .ok (some a) ∧
      FirstNamed (resName st.heap) name st.root.Resources (some a)) := by
  rcases rangeByName_cases (resName st.heap) name _ ((resourcesValid_iff st).1 hv) with
    h | ⟨p, h1, h2⟩
  · exact Or.inl h
  · obtain ⟨a, rfl⟩ := FirstNamed_ne_nil (resName_nil st.heap) h2
    exact Or.inr ⟨a, h1, h2⟩

/-- After a creation, the lookup of the name of the service finds the new resource. -/
theorem Resource_after_create (st : State) (s : Ptr) (svc : ServiceExpr)
    (hv : resourcesValid st = true) (hs : deref st.heap.services s = .ok svc)
    (hno : ∀ q ∈ st.root.Resources, resName st.heap q ≠ .ok svc.Name) :
    RootExpr.Resource (stateAfterCreate st s svc) svc.Name =
      .ok (some st.heap.resources.length) := by
  have hv' := (resourcesValid_iff st).1 hv
  have hskip : ∀ p ∈ st.root.Resources,
      ∃ n, resName (stateAfterCreate st s svc).heap p = .ok n ∧ n ≠ svc.Name := by
    intro p hp
    obtain ⟨n, hn⟩ := hv' p hp
    refine ⟨n, resName_frame st.heap _ _ p n rfl rfl hn, ?_⟩
    intro hc; exact hno p hp (by rw [hn, hc])
  show rangeByName _ svc.Name (st.root.Resources ++ [some st.heap.resources.length]) = _
  rw [rangeByName_append_skip _ _ _ _ hskip]
  simp [rangeByName, resName_created st s svc hs]

theorem resourcesValid_after_create (st : State) (s : Ptr) (svc : ServiceExpr)
    (hv : resourcesValid st = true) (hs : deref st.heap.services s = .ok svc) :
    resourcesValid (stateAfterCreate st s svc) = true := by
  rw [resourcesValid_iff] at hv ⊢
  intro p hp
  have hp' : p ∈ st.root.Resources ++ [some st.heap.resources.length] := hp
  rcases List.mem_append.1 hp' with hp' | hp'
  · obtain ⟨n, hn⟩ := hv p hp'
    exact ⟨n, resName_frame st.heap _ _ p n rfl rfl hn⟩
  · simp at hp'; subst hp'
    exact ⟨svc.Name, resName_created st s svc hs⟩

/-! ## Resource registry -/

/-- C1, as stated, fails on a root that already holds a resource for the service:
in the state reached by one call on the first sample service, two further calls on
that service return the same resource and leave the length of `Resources` as it was,
not one more. -/
theorem ResourceFor_twice_counterexample :
    RootExpr.ResourceFor sampleInit (some 0) = .ok (some 0, sampleOne) ∧
    RootExpr.ResourceFor sampleOne (some 0) = .ok (some 0, sampleOne) ∧
    sampleOne.root.Resources.length ≠ sampleOne.root.Resources.length + 1 := by
  decide

/-- C1, amended: on a root whose resources are live and for a live service
descriptor, two successive calls of `ResourceFor` return the same non-nil resource,
the second call leaves the state as the first left it, and the length of `Resources`
after the two calls is one more than before when no resource had the name of the
service, and the same as before when one had. -/
theorem ResourceFor_twice (st : State) (s : Ptr) (svc : ServiceExpr)
    (hv : resourcesValid st = true) (hs : deref st.heap.services s = .ok svc) :
    ∃ a st1, RootExpr.ResourceFor st s = .ok (some a, st1) ∧
      RootExpr.ResourceFor st1 s = .ok (some a, st1) ∧
      ((∀ q ∈ st.root.Resources, resName st.heap q ≠ .ok svc.Name) →
        st1.root.Resources.length = st.root.Resources.length + 1) ∧
      ((∃ q ∈ st.root.Resources, resName st.heap q = .ok svc.Name) →
        st1.root.Resources.length = st.root.Resources.length) := by
  rcases Resource_cases st svc.Name hv with ⟨h1, h2⟩ | ⟨a, h1, h2⟩
  · refine ⟨st.heap.resources.length, stateAfterCreate st s svc,
      ResourceFor_miss st s svc hs h1, ?_, ?_, ?_⟩
    · exact ResourceFor_hit _ s svc _ hs (Resource_after_create st s svc hv hs h2)
    · intro _; simp [stateAfterCreate]
    · rintro ⟨q, hq, hqn⟩; exact absurd hqn (h2 q hq)
  · refine ⟨a, st, ResourceFor_hit st s svc a hs h1, ResourceFor_hit st s svc a hs h1, ?_, ?_⟩
    · intro hno; exact absurd (FirstNamed_mem h2).2 (hno _ (FirstNamed_mem h2).1)
    · intro _; rfl

/-- Witness of the amended C1 on the initial sample state. -/
theorem ResourceFor_twice_witness :
    resourcesValid sampleInit = true ∧
    deref sampleInit.heap.services (some 2) = .ok ⟨"y", [some 8, some 9]⟩ ∧
    ∃ a st1, RootExpr.ResourceFor sampleInit (some 2) = .ok (some a, st1) ∧
      RootExpr.ResourceFor st1 (some 2) = .ok (some a, st1) ∧
      ((∀ q ∈ sampleInit.root.Resources, resName sampleInit.heap q ≠ .ok "y") →
        st1.root.Resources.length = sampleInit.root.Resources.length + 1) ∧
      ((∃ q ∈ sampleInit.root.Resources, resName sampleInit.heap q = .ok "y") →
        st1.root.Resources.length = sampleInit.root.Resources.length) :=
  ⟨by decide, by decide,
    ResourceFor_twice sampleInit (some 2) ⟨"y", [some 8, some 9]⟩ (by decide) (by decide)⟩

/-- C3: on a root whose resources are live, for a live service descriptor `S` whose
name no element of `Resources` has, `ResourceFor(S)` returns a pointer to a new
resource cell (not allocated and not in `Resources` before) that wraps `S`; its
`Actions` have the length of `S.Endpoints` and hold at every index `i` a new action
cell, the `i`-th allocated by the call, that wraps `S.Endpoints[i]` and points back to
the new resource; no cell allocated before changes, and the new `Resources` is the old
one with the new resource appended last. -/
theorem ResourceFor_creates (st : State) (s : Ptr) (svc : ServiceExpr)
    (hv : resourcesValid st = true) (hs : deref st.heap.services s = .ok svc)
    (hno : ∀ q ∈ st.root.Resources, resName st.heap q ≠ .ok svc.Name) :
    ∃ a st1 r, RootExpr.ResourceFor st s = .ok (some a, st1) ∧
      some a ∉ st.root.Resources ∧ st.heap.resources[a]? = none ∧
      deref st1.heap.resources (some a) = .ok r ∧ r.ServiceExpr = s ∧
      r.Actions.length = svc.Endpoints.length ∧
      (∀ (i : Nat) (e : Ptr), svc.Endpoints[i]? = some e →
        r.Actions[i]? = some (some (st.heap.actions.length + i)) ∧
        deref st1.heap.actions (some (st.heap.actions.length + i)) =
          .ok { EndpointExpr := e, Resource := some a }) ∧
      st1.heap.services = st.heap.services ∧
      (∀ c : Nat, c < st.heap.resources.length →
        st1.heap.resources[c]? = st.heap.resources[c]?) ∧
      (∀ c : Nat, c < st.heap.actions.length → st1.heap.actions[c]? = st.heap.actions[c]?) ∧
      st1.root.Resources = st.root.Resources ++ [some a] := by
  have hmiss : RootExpr.Resource st svc.Name = .ok none := by
    rcases Resource_cases st svc.Name hv with ⟨h1, -⟩ | ⟨a, -, h2⟩
    · exact h1
    · exact absurd (FirstNamed_mem h2).2 (hno _ (FirstNamed_mem h2).1)
  refine ⟨st.heap.resources.length, stateAfterCreate st s svc,
    ⟨s, (List.range svc.Endpoints.length).map (fun k => some (st.heap.actions.length + k))⟩,
    ResourceFor_miss st s svc hs hmiss, ?_, ?_, ?_, rfl, ?_, ?_, rfl, ?_, ?_, rfl⟩
  · intro hmem
    obtain ⟨n, hn⟩ := (resourcesValid_iff st).1 hv _ hmem
    exact absurd (resName_lt st.heap _ n hn) (lt_irrefl _)
  · simp
  · simp [deref, stateAfterCreate]
  · simp
  · intro i e hie
    have hi : i < svc.Endpoints.length := by
      rcases List.getElem?_eq_some.1 hie with ⟨hi, -⟩
      exact hi
    have he : svc.Endpoints[i] = e := by
      rcases List.getElem?_eq_some.1 hie with ⟨_, he⟩
      exact he
    constructor
    · simp [hi]
    · simp only [deref, stateAfterCreate]
      rw [List.getElem?_append_right (Nat.le_add_right _ _)]
      simp [hi, he]
  · intro c hc
    exact List.getElem?_append_left hc
  · intro c hc
    exact List.getElem?_append_left hc

/-- Witness of C3: the third sample service on the state holding a resource named `x`. -/
theorem ResourceFor_creates_witness :
    resourcesValid sampleOne = true ∧
    deref sampleOne.heap.services (some 2) = .ok ⟨"y", [some 8, some 9]⟩ ∧
    (∀ q ∈ sampleOne.root.Resources, resName sampleOne.heap q ≠ .ok "y") ∧
    ∃ a st1 r, RootExpr.ResourceFor sampleOne (some 2) = .ok (some a, st1) ∧
      some a ∉ sampleOne.root.Resources ∧ sampleOne.heap.resources[a]? = none ∧
      deref st1.heap.resources (some a) = .ok r ∧ r.ServiceExpr = some 2 ∧
      r.Actions.length = [some 8, some 9].length ∧
      (∀ (i : Nat) (e : Ptr), [some 8, some 9][i]? = some e →
        r.Actions[i]? = some (some (sampleOne.heap.actions.length + i)) ∧
        deref st1.heap.actions (some (sampleOne.heap.actions.length + i)) =
          .ok { EndpointExpr := e, Resource := some a }) ∧
      st1.heap.services = sampleOne.heap.services ∧
      (∀ c : Nat, c < sampleOne.heap.resources.length →
        st1.heap.resources[c]? = sampleOne.heap.resources[c]?) ∧
      (∀ c : Nat, c < sampleOne.heap.actions.length →
        st1.heap.actions[c]? = sampleOne.heap.actions[c]?) ∧
      st1.root.Resources = sampleOne.root.Resources ++ [some a] :=
  ⟨by decide, by decide, by decide,
    ResourceFor_creates sampleOne (some 2) ⟨"y", [some 8, some 9]⟩
      (by decide) (by decide) (by decide)⟩

/-- C4: on a root whose resources are live, for a live service descriptor `S` whose
name some element of `Resources` has, `ResourceFor(S)` returns the first element of
`Resources` of that name and the state after the call is the state before it: the
`Resources` sequence, every resource cell and every action cell are as they were,
whatever the endpoints of `S` are. -/
theorem ResourceFor_existing (st : State) (s : Ptr) (svc : ServiceExpr)
    (hv : resourcesValid st = true) (hs : deref st.heap.services s = .ok svc)
    (hit : ∃ q ∈ st.root.Resources, resName st.heap q = .ok svc.Name) :
    ∃ a, RootExpr.ResourceFor st s = .ok (some a, st) ∧
      FirstNamed (resName st.heap) svc.Name st.root.Resources (some a) := by
  rcases Resource_cases st svc.Name hv with ⟨-, h2⟩ | ⟨a, h1, h2⟩
  · obtain ⟨q, hq, hqn⟩ := hit
    exact absurd hqn (h2 q hq)
  · exact ⟨a, ResourceFor_hit st s svc a hs h1, h2⟩

/-- Witness of C4: the second sample service, named `x` like the resource the state
holds but with one endpoint more than the service that resource was built from. -/
theorem ResourceFor_existing_witness :
    resourcesValid sampleOne = true ∧
    deref sampleOne.heap.services (some 1) = .ok ⟨"x", [some 7]⟩ ∧
    (∃ q ∈ sampleOne.root.Resources, resName sampleOne.heap q = .ok "x") ∧
    ∃ a, RootExpr.ResourceFor sampleOne (some 1) = .ok (some a, sampleOne) ∧
      FirstNamed (resName sampleOne.heap) "x" sampleOne.root.Resources (some a) :=
  ⟨by decide, by decide, by decide,
    ResourceFor_existing sampleOne (some 1) ⟨"x", [some 7]⟩ (by decide) (by decide) (by decide)⟩

/-! ## The invariant of the resource registry -/

theorem namesDistinct_after_create (st : State) (s : Ptr) (svc : ServiceExpr)
    (hv : resourcesValid st = true) (hs : deref st.heap.services s = .ok svc)
    (hno : ∀ q ∈ st.root.Resources, resName st.heap q ≠ .ok svc.Name)
    (hinv : namesDistinct st) : namesDistinct (stateAfterCreate st s svc) := by
  have hv' := (resourcesValid_iff st).1 hv
  have hkeep : ∀ p ∈ st.root.Resources,
      resName (stateAfterCreate st s svc).heap p = resName st.heap p := by
    intro p hp
    obtain ⟨n, hn⟩ := hv' p hp
    rw [hn]; exact resName_frame st.heap _ _ p n rfl rfl hn
  show List.Pairwise _ (st.root.Resources ++ [some st.heap.resources.length])
  rw [List.pairwise_append]
  refine ⟨?_, List.pairwise_singleton _ _, ?_⟩
  · refine List.Pairwise.imp_of_mem ?_ hinv
    intro p q hp hq hpq
    rw [hkeep p hp, hkeep q hq]; exact hpq
  · intro p hp q hq
    simp at hq; subst hq
    rw [hkeep p hp, resName_created st s svc hs]
    exact hno p hp

/-- One call of `ResourceFor` on a live service keeps the resources live and their
names distinct. -/
theorem ResourceFor_keeps (st : State) (s : Ptr) (svc : ServiceExpr)
    (hv : resourcesValid st = true) (hs : deref st.heap.services s = .ok svc)
    (hinv : namesDistinct st) :
    ∃ p st1, RootExpr.ResourceFor st s = .ok (p, st1) ∧ resourcesValid st1 = true ∧
      namesDistinct st1 := by
  rcases Resource_cases st svc.Name hv with ⟨h1, h2⟩ | ⟨a, h1, -⟩
  · exact ⟨_, _, ResourceFor_miss st s svc hs h1, resourcesValid_after_create st s svc hv hs,
      namesDistinct_after_create st s svc hv hs h2 hinv⟩
  · exact ⟨_, _, ResourceFor_hit st s svc a hs h1, hv, hinv⟩

/-- A call that returns was made on a live service descriptor. -/
theorem ResourceFor_ok_service (st : State) (s : Ptr) (r : Ptr × State)
    (h : RootExpr.ResourceFor st s = .ok r) : ∃ svc, deref st.heap.services s = .ok svc := by
  cases hd : deref st.heap.services s with
  | ok svc => exact ⟨svc, rfl⟩
  | error e => simp [RootExpr.ResourceFor, hd] at h

theorem Reachable_keeps (st : State) (h : Reachable st) :
    resourcesValid st = true ∧ namesDistinct st := by
  induction h with
  | init services responses =>
    exact ⟨rfl, List.Pairwise.nil⟩
  | call st st1 s p _ hcall ih =>
    obtain ⟨svc, hs⟩ := ResourceFor_ok_service st s _ hcall
    obtain ⟨p1, st2, h1, h2, h3⟩ := ResourceFor_keeps st s svc ih.1 hs ih.2
    rw [hcall] at h1
    cases h1
    exact ⟨h2, h3⟩

/-- C5: the predicate that no two elements of `Resources` have the same service name
is preserved by `ResourceFor` (on a root whose resources are live and for a live
service descriptor, the call returns and the state after it satisfies the predicate,
with its resources live again); it holds in every initial state; and it holds in
every state reachable from an initial state by calls of `ResourceFor`. -/
theorem namesDistinct_invariant (st : State) (s : Ptr) (svc : ServiceExpr)
    (hv : resourcesValid st = true) (hs : deref st.heap.services s = .ok svc)
    (hinv : namesDistinct st) :
    (∃ p st1, RootExpr.ResourceFor st s = .ok (p, st1) ∧ resourcesValid st1 = true ∧
      namesDistinct st1) ∧
    (∀ services responses, namesDistinct (initState services responses)) ∧
    (∀ st2, Reachable st2 → namesDistinct st2) :=
  ⟨ResourceFor_keeps st s svc hv hs hinv, fun _ _ => List.Pairwise.nil,
    fun st2 h => (Reachable_keeps st2 h).2⟩

/-- Witness of C5 on the state holding one resource and the third sample service. -/
theorem namesDistinct_invariant_witness :
    resourcesValid sampleOne = true ∧
    deref sampleOne.heap.services (some 2) = .ok ⟨"y", [some 8, some 9]⟩ ∧
    namesDistinct sampleOne ∧
    (∃ p st1, RootExpr.ResourceFor sampleOne (some 2) = .ok (p, st1) ∧
      resourcesValid st1 = true ∧ namesDistinct st1) ∧
    (∀ services responses, namesDistinct (initState services responses)) ∧
    (∀ st2, Reachable st2 → namesDistinct st2) :=
  ⟨by decide, by decide, List.pairwise_singleton _ _,
    namesDistinct_invariant sampleOne (some 2) ⟨"y", [some 8, some 9]⟩
      (by decide) (by decide) (List.pairwise_singleton _ _)⟩

/-! ## Wildcard extraction -/

/-- C9: `ExtractWildcards` on the example paths of the specification. -/
theorem ExtractWildcards_examples :
    ExtractWildcards "/users" = .ok [] ∧
    ExtractWildcards "/users/:id" = .ok ["id"] ∧
    ExtractWildcards "/files/*path" = .ok ["path"] ∧
    ExtractWildcards "/a/:x/b/:y" = .ok ["x", "y"] ∧
    ExtractWildcards "/:a/:a" = .ok ["a", "a"] := by
  refine ⟨?_, ?_, ?_, ?_, ?_⟩ <;> decide

/-! ### The reference definition along suffixes -/

theorem isParamAt_zero (s : List Char) : isParamAt s 0 = startsParam s := by
  match s with
  | [] => rfl
  | [_] => simp [isParamAt, startsParam]
  | [_, _] => simp [isParamAt, startsParam]
  | c :: d :: x :: _ => simp [isParamAt, startsParam]

theorem isParamAt_succ (c : Char) (cs : List Char) (i : Nat) :
    isParamAt (c :: cs) (i + 1) = isParamAt cs i := by
  simp [isParamAt]

theorem nameAt_succ (c : Char) (cs : List Char) (i : Nat) :
    nameAt (c :: cs) (i + 1) = nameAt cs i := by
  simp [nameAt]

/-- The position-wise reference definition and its suffix-wise form agree. -/
theorem paramPositions_map_eq_specFrom (s : List Char) :
    (paramPositions s).map (nameAt s) = specFrom s := by
  induction s with
  | nil => rfl
  | cons c cs ih =>
    simp only [paramPositions, List.length_cons, List.range_succ_eq_map, List.filter_cons,
      isParamAt_zero, specFrom]
    have hrest : List.map (nameAt (c :: cs))
        (List.filter (isParamAt (c :: cs)) (List.map Nat.succ (List.range cs.length))) =
        specFrom cs := by
      rw [← ih, paramPositions, List.filter_map, List.map_map]
      have h1 : (isParamAt (c :: cs) ∘ Nat.succ) = isParamAt cs := by
        funext i; exact isParamAt_succ c cs i
      have h2 : (nameAt (c :: cs) ∘ Nat.succ) = nameAt cs := by
        funext i; exact nameAt_succ c cs i
      rw [h1, h2]
    by_cases hp : startsParam (c :: cs) = true
    · simp only [hp, if_true, List.map_cons, hrest]
      simp [nameAt]
    · simp only [hp, if_false]
      simpa using hrest

theorem isIdentChar_ne_slash (c : Char) (h : isIdentChar c = true) : (c == '/') = false := by
  cases hc : c == '/' with
  | false => rfl
  | true =>
    have : c = '/' := by simpa using hc
    subst this
    exact absurd h (by decide)

theorem startsParam_of_not_slash (c : Char) (cs : List Char) (h : (c == '/') = false) :
    startsParam (c :: cs) = false := by
  match cs with
  | [] => rfl
  | [_] => rfl
  | d :: x :: _ => simp [startsParam, h]

theorem specFrom_cons_not_slash (c : Char) (cs : List Char) (h : (c == '/') = false) :
    specFrom (c :: cs) = specFrom cs := by
  simp [specFrom, startsParam_of_not_slash c cs h]

/-- No parameter starts inside a run of identifier characters. -/
theorem specFrom_dropWhile (s : List Char) :
    specFrom (s.dropWhile isIdentChar) = specFrom s := by
  induction s with
  | nil => rfl
  | cons c cs ih =>
    by_cases hc : isIdentChar c = true
    · rw [List.dropWhile_cons_of_pos hc, ih,
        specFrom_cons_not_slash c cs (isIdentChar_ne_slash c hc)]
    · rw [List.dropWhile_cons_of_neg hc]

/-- At a parameter, the reference result is its name followed by the result on what
follows the name. -/
theorem specFrom_of_startsParam (s : List Char) (h : startsParam s = true) :
    specFrom s = String.mk ((s.drop 2).takeWhile isIdentChar) ::
        specFrom ((s.drop 2).dropWhile isIdentChar) ∧
      ((s.drop 2).dropWhile isIdentChar).length < s.length := by
  match s, h with
  | c :: d :: x :: ys, h =>
    simp only [startsParam, Bool.and_eq_true, Bool.or_eq_true] at h
    have hd : (d == '/') = false := by
      rcases h.1.2 with hd | hd
      · have : d = ':' := by simpa using hd
        subst this; decide
      · have : d = '*' := by simpa using hd
        subst this; decide
    constructor
    · have hs : startsParam (c :: d :: x :: ys) = true := by
        simp only [startsParam, Bool.and_eq_true, Bool.or_eq_true]; exact h
      rw [specFrom, hs, specFrom_cons_not_slash d (x :: ys) hd, specFrom_dropWhile]
      simp
    · have := (List.dropWhile_sublist isIdentChar (l := x :: ys)).length_le
      simp only [List.drop_succ_cons, List.drop_zero, List.length_cons] at this ⊢
      omega

/-! ### The matcher on the wildcard expression -/

theorem threads_cls_cons (p : Char → Bool) (x : Char) (xs : List Char) (g : Caps) :
    (Regex.cls p).threads (x :: xs) g = if p x then [(xs, g)] else [] := rfl

theorem threads_cls_nil (p : Char → Bool) (g : Caps) : (Regex.cls p).threads [] g = [] := rfl

/-- The preferred thread of a greedy repetition of a class takes the longest run. -/
theorem plusLoop_cls_head (p : Char → Bool) :
    ∀ (n : Nat) (s : List Char) (g : Caps), s.length < n →
      (plusLoop (Regex.cls p).threads n s g).head? =
        match s with
        | x :: _ => if p x then some (s.dropWhile p, g) else none
        | [] => none := by
  intro n
  induction n with
  | zero => intro s g h; omega
  | succ n ih =>
    intro s g h
    match s with
    | [] => simp [plusLoop, threads_cls_nil]
    | x :: xs =>
      by_cases hx : p x = true
      · have hlen : xs.length < n := by simp at h; omega
        simp only [plusLoop, threads_cls_cons, hx, if_true, List.flatMap_cons,
          List.flatMap_nil, List.append_nil, List.length_cons, Nat.lt_succ_self,
          List.head?_append, ih xs g hlen, List.dropWhile_cons_of_pos hx]
        match xs with
        | [] => simp
        | y :: ys =>
          by_cases hy : p y = true
          · simp [hy]
          · simp [hy]
      · simp [plusLoop, threads_cls_cons, hx]

theorem take_length_sub_dropWhile (p : Char → Bool) (s : List Char) :
    s.take (s.length - (s.dropWhile p).length) = s.takeWhile p := by
  have h := List.takeWhile_append_dropWhile p s
  have hlen := congrArg List.length h
  simp only [List.length_append] at hlen
  have ht : (s.takeWhile p ++ s.dropWhile p).take (s.takeWhile p).length = s.takeWhile p :=
    List.take_left' rfl
  rw [h] at ht
  rw [← hlen, Nat.add_sub_cancel, ht]

/-- A slash, then a colon or a star, then `r`: the threads are those of `r` on what
follows the two delimiters. -/
theorem threads_delimited (r : Regex) (s : List Char) (g : Caps) :
    (Regex.cat (.lit '/') (.cat (.alt (.lit ':') (.lit '*')) r)).threads s g =
      match s with
      | c :: d :: rest => if c = '/' ∧ (d = ':' ∨ d = '*') then r.threads rest g else []
      | _ => [] := by
  match s with
  | [] => rfl
  | [c] =>
    by_cases hc : c = '/' <;> simp [Regex.threads, hc]
  | c :: d :: rest =>
    by_cases hc : c = '/'
    · by_cases hd1 : d = ':'
      · subst hd1
        have : ¬ (':' = '*') := by decide
        simp [Regex.threads, hc, this]
      · by_cases hd2 : d = '*'
        · simp [Regex.threads, hc, hd1, hd2]
        · simp [Regex.threads, hc, hd1, hd2]
    · simp [Regex.threads, hc]

/-- The preferred thread of the captured name: the longest run of identifier
characters, bound to group `i`. -/
theorem threads_name_head (i : Nat) (zs : List Char) (g : Caps) :
    ((Regex.cap i (.plus (.cls isIdentChar))).threads zs g).head? =
      match zs with
      | x :: _ => if isIdentChar x then
          some (zs.dropWhile isIdentChar, (i, zs.takeWhile isIdentChar) :: g) else none
      | [] => none := by
  have h := plusLoop_cls_head isIdentChar (zs.length + 1) zs g (Nat.lt_succ_self _)
  have hc : (Regex.cap i (.plus (.cls isIdentChar))).threads zs g =
      (plusLoop (Regex.cls isIdentChar).threads (zs.length + 1) zs g).map
        (fun t => (t.1, (i, zs.take (zs.length - t.1.length)) :: g)) := rfl
  rw [hc, List.head?_map, h]
  match zs with
  | [] => rfl
  | x :: xs =>
    by_cases hx : isIdentChar x = true
    · simp only [hx, if_true, Option.map_some']
      rw [take_length_sub_dropWhile]
    · simp [hx]

/-- The preferred thread of the wildcard expression at the front of the input:
there is one exactly when the input begins with a parameter, it stops after the
longest run of identifier characters and binds group 1 to that run. -/
theorem WildcardRegex_head (s : List Char) :
    (WildcardRegex.threads s []).head? =
      if startsParam s then
        some ((s.drop 2).dropWhile isIdentChar, [(1, (s.drop 2).takeWhile isIdentChar)])
      else none := by
  rw [WildcardRegex, threads_delimited]
  match s with
  | [] => rfl
  | [c] => rfl
  | c :: d :: rest =>
    show (if c = '/' ∧ (d = ':' ∨ d = '*') then
        (Regex.cap 1 (.plus (.cls isIdentChar))).threads rest [] else []).head? = _
    by_cases hcd : c = '/' ∧ (d = ':' ∨ d = '*')
    · rw [if_pos hcd, threads_name_head]
      match rest with
      | [] => rfl
      | x :: xs =>
        have hb : (c == '/' && (d == ':' || d == '*')) = true := by simpa using hcd
        simp only [startsParam, hb, Bool.true_and, List.drop_succ_cons, List.drop_zero]
    · rw [if_neg hcd, List.head?_nil]
      match rest with
      | [] => rfl
      | x :: xs =>
        have hb : (c == '/' && (d == ':' || d == '*')) = false := by
          cases hbb : (c == '/' && (d == ':' || d == '*')) with
          | false => rfl
          | true => exact absurd (by simpa using hbb) hcd
        simp [startsParam, hb]

/-- The leftmost search either fails, and then no suffix begins with a parameter, or
stops at the first suffix that begins with one. -/
theorem search_WildcardRegex (s : List Char) :
    (WildcardRegex.search s = none ∧ specFrom s = []) ∨
    (∃ start, startsParam start = true ∧
      WildcardRegex.search s = some (start, ((start.drop 2).dropWhile isIdentChar,
        [(1, (start.drop 2).takeWhile isIdentChar)])) ∧
      start.length ≤ s.length ∧ specFrom s = specFrom start) := by
  induction s with
  | nil =>
    left
    simp [Regex.search, WildcardRegex_head, startsParam, specFrom]
  | cons c cs ih =>
    by_cases hp : startsParam (c :: cs) = true
    · right
      refine ⟨c :: cs, hp, ?_, le_refl _, rfl⟩
      simp only [Regex.search, WildcardRegex_head, hp, if_true]
    · have hstep : WildcardRegex.search (c :: cs) = WildcardRegex.search cs := by
        simp only [Regex.search, WildcardRegex_head, hp]
        rfl
      have hspec : specFrom (c :: cs) = specFrom cs := by simp [specFrom, hp]
      rcases ih with ⟨h1, h2⟩ | ⟨start, h1, h2, h3, h4⟩
      · left; exact ⟨by rw [hstep, h1], by rw [hspec, h2]⟩
      · right
        refine ⟨start, h1, by rw [hstep, h2], ?_, by rw [hspec, h4]⟩
        simp only [List.length_cons]; omega

theorem submatch_WildcardRegex_group (start rest name : List Char) :
    (submatch WildcardRegex start (rest, [(1, name)]))[1]? = some (String.mk name) := by
  simp [submatch, WildcardRegex, Regex.numSubexp, groupText, List.lookup]

/-- With fuel above the length of the input, the names of the successive matches
are the reference result. -/
theorem wcsLoop_allMatches (fuel : Nat) :
    ∀ (s : List Char) (prev : Option Nat), s.length < fuel →
      wcsLoop (allMatches WildcardRegex fuel s prev) = .ok (specFrom s) := by
  induction fuel with
  | zero => intro s prev h; omega
  | succ fuel ih =>
    intro s prev h
    rcases search_WildcardRegex s with ⟨h1, h2⟩ | ⟨start, h1, h2, h3, h4⟩
    · simp [allMatches, h1, h2, wcsLoop]
    · obtain ⟨hspec, hlt⟩ := specFrom_of_startsParam start h1
      have hne : ¬ ((start.drop 2).dropWhile isIdentChar).length = s.length := by omega
      have hrec := ih ((start.drop 2).dropWhile isIdentChar)
        (some ((start.drop 2).dropWhile isIdentChar).length) (by omega)
      simp only [allMatches, h2, hne, if_false, wcsLoop, submatch_WildcardRegex_group, hrec]
      rw [h4, hspec]

/-- The names of the reference result are non-empty runs of identifier characters. -/
theorem specFrom_names (s : List Char) :
    ∀ n ∈ specFrom s, n ≠ "" ∧ ∀ c ∈ n.data, isIdentChar c = true := by
  induction s with
  | nil => intro n hn; simp [specFrom] at hn
  | cons c cs ih =>
    intro n hn
    simp only [specFrom, List.mem_append] at hn
    rcases hn with hn | hn
    · by_cases hp : startsParam (c :: cs) = true
      · simp only [hp, if_true, List.mem_singleton] at hn
        subst hn
        match cs, hp with
        | d :: x :: ys, hp =>
          have hx : isIdentChar x = true := by
            simp only [startsParam, Bool.and_eq_true] at hp
            exact hp.2
          constructor
          · intro hc
            have := congrArg String.data hc
            simp [List.takeWhile_cons, hx] at this
          · intro a ha
            exact (List.mem_takeWhile_imp ha)
      · simp [hp] at hn
    · exact ih n hn

/-- C10: for every path, `ExtractWildcards` returns the reference result: the names
at the positions `i`, in increasing order, where `path[i]` is a slash, `path[i+1]` a
colon or a star and `path[i+2]` an identifier character, each name being the maximal
run of identifier characters from `i + 2` on. Every returned name is non-empty and
made of identifier characters only, and there are as many names as such positions. -/
theorem ExtractWildcards_eq_wildcardsSpec (path : String) :
    ExtractWildcards path = .ok (wildcardsSpec path) ∧
    (∀ n ∈ wildcardsSpec path, n ≠ "" ∧ ∀ c ∈ n.data, isIdentChar c = true) ∧
    (wildcardsSpec path).length = (paramPositions path.data).length := by
  have hspec : wildcardsSpec path = specFrom path.data :=
    paramPositions_map_eq_specFrom path.data
  refine ⟨?_, ?_, ?_⟩
  · rw [hspec]
    exact wcsLoop_allMatches (path.data.length + 1) path.data none (Nat.lt_succ_self _)
  · rw [hspec]
    exact specFrom_names path.data
  · simp [wildcardsSpec]

/-! ### Paths built from segments -/

/-- The result of `ExtractWildcards` in the suffix-wise form of the reference. -/
theorem ExtractWildcards_eq_specFrom (path : String) :
    ExtractWildcards path = .ok (specFrom path.data) :=
  wcsLoop_allMatches (path.data.length + 1) path.data none (Nat.lt_succ_self _)

theorem takeWhile_append_stop (p : Char → Bool) (n rest : List Char)
    (hn : ∀ c ∈ n, p c = true) (hrest : ∀ c, rest.head? = some c → p c = false) :
    (n ++ rest).takeWhile p = n ∧ (n ++ rest).dropWhile p = rest := by
  induction n with
  | nil =>
    match rest, hrest with
    | [], _ => simp
    | c :: cs, hrest =>
      have hc := hrest c rfl
      simp [List.takeWhile_cons, List.dropWhile_cons, hc]
  | cons x xs ih =>
    have hx := hn x (by simp)
    have ih' := ih (fun c hc => hn c (by simp [hc]))
    simp [List.takeWhile_cons, List.dropWhile_cons, hx, ih'.1, ih'.2]

/-- One well-formed segment in front of an input that is empty or goes on with a
character outside the identifier class contributes exactly its name. -/
theorem specFrom_segment (d : Char) (n rest : List Char) (hd : d = ':' ∨ d = '*')
    (hne : n ≠ []) (hn : ∀ c ∈ n, isIdentChar c = true)
    (hrest : ∀ c, rest.head? = some c → isIdentChar c = false) :
    specFrom ('/' :: d :: (n ++ rest)) = String.mk n :: specFrom rest := by
  have hsp : startsParam ('/' :: d :: (n ++ rest)) = true := by
    match n, hne, hn with
    | x :: xs, _, hn =>
      have hx := hn x (by simp)
      rcases hd with rfl | rfl <;> simp [startsParam, hx]
  have h := (specFrom_of_startsParam _ hsp).1
  have hs := takeWhile_append_stop isIdentChar n rest hn hrest
  simp only [List.drop_succ_cons, List.drop_zero] at h
  rw [h, hs.1, hs.2]

theorem segmentsPath_cons_data (seg : Char × String) (segs : List (Char × String)) :
    (segmentsPath (seg :: segs)).data =
      '/' :: seg.1 :: (seg.2.data ++ (segmentsPath segs).data) := by
  simp [segmentsPath, String.data_append, String.singleton]

theorem segmentsPath_head (segs : List (Char × String)) :
    ∀ c, (segmentsPath segs).data.head? = some c → isIdentChar c = false := by
  intro c hc
  match segs with
  | [] => simp [segmentsPath] at hc
  | seg :: segs =>
    rw [segmentsPath_cons_data] at hc
    simp at hc
    subst hc
    decide

/-- C11: for every list of pairs of a delimiter (a colon or a star) and a non-empty
name made of identifier characters, `ExtractWildcards` on the concatenation of the
segments `/` + delimiter + name returns exactly the names, in the order of the list
and with repeated names kept. -/
theorem ExtractWildcards_segments (segs : List (Char × String))
    (hsegs : ∀ seg ∈ segs, (seg.1 = ':' ∨ seg.1 = '*') ∧ seg.2 ≠ "" ∧
      ∀ c ∈ seg.2.data, isIdentChar c = true) :
    ExtractWildcards (segmentsPath segs) = .ok (segs.map (fun seg => seg.2)) := by
  rw [ExtractWildcards_eq_specFrom]
  congr 1
  induction segs with
  | nil => rfl
  | cons seg segs ih =>
    obtain ⟨hd, hne, hn⟩ := hsegs seg (by simp)
    have hne' : seg.2.data ≠ [] := by
      intro hc
      apply hne
      cases hseg : seg.2 with
      | mk data => rw [hseg] at hc; simp at hc; rw [hc]
    rw [segmentsPath_cons_data, specFrom_segment seg.1 seg.2.data _ hd hne' hn
      (segmentsPath_head segs), ih (fun s hs => hsegs s (by simp [hs]))]
    simp

/-- Witness of C11: three segments, one with a star and one name repeated. -/
theorem ExtractWildcards_segments_witness :
    (∀ seg ∈ [(':', "id"), ('*', "rest"), (':', "id")],
      (seg.1 = ':' ∨ seg.1 = '*') ∧ seg.2 ≠ "" ∧ ∀ c ∈ seg.2.data, isIdentChar c = true) ∧
    ExtractWildcards (segmentsPath [(':', "id"), ('*', "rest"), (':', "id")]) =
      .ok ([(':', "id"), ('*', "rest"), (':', "id")].map (fun seg => seg.2)) :=
  ⟨by decide, ExtractWildcards_segments [(':', "id"), ('*', "rest"), (':', "id")] (by decide)⟩

/-! ### The slice returned by ExtractWildcards -/

theorem FindAllStringSubmatchSlice_elems (re : Regex) (s : String) :
    (re.FindAllStringSubmatchSlice s).elems = re.FindAllStringSubmatch s := by
  unfold Regex.FindAllStringSubmatchSlice
  cases re.FindAllStringSubmatch s <;> rfl

/-- Writing the names index by index into the made slice gives the names in order. -/
theorem wcsWrite_eq (ms : List (List String)) :
    ∀ pre : List String,
      wcsWrite pre.length ms (.array (pre ++ List.replicate ms.length "")) =
        match wcsLoop ms with
        | .ok ws => .ok (.array (pre ++ ws))
        | .error e => .error e := by
  induction ms with
  | nil => intro pre; simp [wcsWrite, wcsLoop]
  | cons m ms ih =>
    intro pre
    cases hm : m[1]? with
    | none => simp [wcsWrite, wcsLoop, hm]
    | some w =>
      have hset : (pre ++ List.replicate (ms.length + 1) "").set pre.length w =
          (pre ++ [w]) ++ List.replicate ms.length "" := by
        rw [List.set_append_right _ _ (le_refl _)]
        simp [List.replicate_succ]
      have hlen : pre.length + 1 = (pre ++ [w]).length := by simp
      simp only [wcsWrite, wcsLoop, hm, Slice.len, Slice.elems, Slice.set, List.length_cons,
        List.length_append, List.length_replicate]
      rw [if_pos (by omega), hset, hlen, ih (pre ++ [w])]
      cases wcsLoop ms <;> simp

/-- The slice form of `ExtractWildcards` is an allocated slice over its names. -/
theorem ExtractWildcards_slice_eq (path : String) :
    ExtractWildcards.slice path = .ok (.array (specFrom path.data)) := by
  have h := wcsWrite_eq (WildcardRegex.FindAllStringSubmatch path) []
  have hw : wcsLoop (WildcardRegex.FindAllStringSubmatch path) = .ok (specFrom path.data) :=
    ExtractWildcards_eq_specFrom path
  simp only [List.nil_append, List.length_nil, hw] at h
  simp only [ExtractWildcards.slice, makeStrings, Slice.len, FindAllStringSubmatchSlice_elems]
  exact h

/-- C12: for every path with no parameter position, `ExtractWildcards` returns no
name, and the slice it returns is the allocated slice of length 0 built by `make`,
not the nil slice (although `FindAllStringSubmatch` returned the nil slice). -/
theorem ExtractWildcards_no_param (path : String) (hno : paramPositions path.data = []) :
    ExtractWildcards path = .ok [] ∧
    ExtractWildcards.slice path = .ok (.array []) ∧
    ExtractWildcards.slice path ≠ .ok .nil ∧
    (Slice.array [] : Slice String).len = 0 ∧
    WildcardRegex.FindAllStringSubmatchSlice path = .nil := by
  have hspec : specFrom path.data = [] := by
    rw [← paramPositions_map_eq_specFrom, hno]; rfl
  have h1 : ExtractWildcards path = .ok [] := by rw [ExtractWildcards_eq_specFrom, hspec]
  have h2 : ExtractWildcards.slice path = .ok (.array []) := by
    rw [ExtractWildcards_slice_eq, hspec]
  refine ⟨h1, h2, ?_, rfl, ?_⟩
  · rw [h2]; intro hc; cases hc
  · unfold Regex.FindAllStringSubmatchSlice
    cases hm : WildcardRegex.FindAllStringSubmatch path with
    | nil => rfl
    | cons m ms =>
      have h3 : wcsLoop (WildcardRegex.FindAllStringSubmatch path) = .ok [] := h1
      rw [hm] at h3
      simp only [wcsLoop] at h3
      cases hm1 : m[1]? with
      | none => simp [hm1] at h3
      | some w =>
        cases hl : wcsLoop ms with
        | ok ws => simp [hm1, hl] at h3
        | error e => simp [hm1, hl] at h3

/-- Witness of C12 on a path without parameter. -/
theorem ExtractWildcards_no_param_witness :
    paramPositions "/users/:/*/x:y".data = [] ∧
    ExtractWildcards "/users/:/*/x:y" = .ok [] ∧
    ExtractWildcards.slice "/users/:/*/x:y" = .ok (.array []) ∧
    ExtractWildcards.slice "/users/:/*/x:y" ≠ .ok .nil ∧
    (Slice.array [] : Slice String).len = 0 ∧
    WildcardRegex.FindAllStringSubmatchSlice "/users/:/*/x:y" = .nil :=
  ⟨by decide, ExtractWildcards_no_param "/users/:/*/x:y" (by decide)⟩

/-! ### Totality of ExtractWildcards -/

theorem submatch_length (re : Regex) (start : List Char) (t : Thread) :
    (submatch re start t).length = re.numSubexp + 1 := by
  simp [submatch]

/-- Every match delivered has one string for the whole match and one per group. -/
theorem allMatches_length (re : Regex) (fuel : Nat) :
    ∀ (s : List Char) (prev : Option Nat), ∀ m ∈ allMatches re fuel s prev,
      m.length = re.numSubexp + 1 := by
  induction fuel with
  | zero => intro s prev m hm; simp [allMatches] at hm
  | succ fuel ih =>
    intro s prev m hm
    unfold allMatches at hm
    cases hsearch : re.search s with
    | none => simp [hsearch] at hm
    | some r =>
      obtain ⟨start, t⟩ := r
      simp only [hsearch] at hm
      by_cases hlen : t.1.length = s.length
      · simp only [hlen, if_true] at hm
        have hout : ∀ m ∈ (if some start.length = prev then []
            else [submatch re start t] : List (List String)), m.length = re.numSubexp + 1 := by
          intro m hm
          by_cases hp : some start.length = prev
          · simp [hp] at hm
          · simp only [hp, if_false, List.mem_singleton] at hm
            subst hm; exact submatch_length re start t
        match s, hm with
        | [], hm => exact hout m hm
        | _ :: xs, hm =>
          rcases List.mem_append.1 hm with hm | hm
          · exact hout m hm
          · exact ih _ _ m hm
      · simp only [hlen, if_false, List.mem_cons] at hm
        rcases hm with rfl | hm
        · exact submatch_length re start t
        · exact ih _ _ m hm

/-- C13: `ExtractWildcards` is total. For every input string it returns a sequence of
names; every match `m` it reads has a capture group 1, so the access `m[1]` is in
range; and on the malformed templates `/:`, `/*`, `:id`, `/:a:b` and the empty
string it returns without failing, the malformed parts contributing no name. -/
theorem ExtractWildcards_total (path : String) :
    (∃ ws, ExtractWildcards path = .ok ws) ∧
    (∀ m ∈ WildcardRegex.FindAllStringSubmatch path, ∃ w, m[1]? = some w) ∧
    ExtractWildcards "/:" = .ok [] ∧
    ExtractWildcards "/*" = .ok [] ∧
    ExtractWildcards ":id" = .ok [] ∧
    ExtractWildcards "/:a:b" = .ok ["a"] ∧
    ExtractWildcards "" = .ok [] := by
  refine ⟨⟨_, ExtractWildcards_eq_specFrom path⟩, ?_, by decide, by decide, by decide,
    by decide, by decide⟩
  intro m hm
  have hlen : m.length = 2 := allMatches_length WildcardRegex _ _ _ m hm
  have h1 : 1 < m.length := by omega
  exact ⟨m[1], List.getElem?_eq_getElem h1⟩

/-! ## Further properties of the registries -/

/-- The two outcomes of `ResourceFor` on live pointers: the first resource of the name
is returned and nothing changes, or no resource has the name and one is created. -/
theorem ResourceFor_cases (st : State) (s : Ptr) (svc : ServiceExpr)
    (hv : resourcesValid st = true) (hs : deref st.heap.services s = .ok svc) :
    (∃ a, FirstNamed (resName st.heap) svc.Name st.root.Resources (some a) ∧
      RootExpr.Resource st svc.Name = .ok (some a) ∧
      RootExpr.ResourceFor st s = .ok (some a, st)) ∨
    ((∀ q ∈ st.root.Resources, resName st.heap q ≠ .ok svc.Name) ∧
      RootExpr.ResourceFor st s =
        .ok (some st.heap.resources.length, stateAfterCreate st s svc)) := by
  rcases Resource_cases st svc.Name hv with ⟨h1, h2⟩ | ⟨a, h1, h2⟩
  · exact Or.inr ⟨h2, ResourceFor_miss st s svc hs h1⟩
  · exact Or.inl ⟨a, h2, h1, ResourceFor_hit st s svc a hs h1⟩

/-- The lookup loop returns, and returns nil when no element has the name. -/
theorem rangeByName_total (nameOf : Ptr → Result String) (name : String) (ps : List Ptr)
    (hv : ∀ p ∈ ps, ∃ n, nameOf p = .ok n) :
    ∃ r, rangeByName nameOf name ps = .ok r ∧
      ((∀ q ∈ ps, nameOf q ≠ .ok name) → r = none) := by
  rcases rangeByName_cases nameOf name ps hv with ⟨h1, -⟩ | ⟨p, h1, h2⟩
  · exact ⟨none, h1, fun _ => rfl⟩
  · exact ⟨p, h1, fun hno => absurd (FirstNamed_mem h2).2 (hno _ (FirstNamed_mem h2).1)⟩

/-- C14, as stated, fails for the nil service descriptor argument: `ResourceFor(nil)`
panics on the read of `s.Name`, in the initial state as in any other. -/
theorem ResourceFor_nil_counterexample :
    RootExpr.ResourceFor sampleInit none = .error .nilDereference ∧
    RootExpr.ResourceFor sampleOne none = .error .nilDereference := by
  decide

/-- C14, amended: on a root whose `Responses`, `DefaultResponses` and `Resources` hold
live pointers, for every name and every live (non-nil) service descriptor argument,
`Response`, `DefaultResponse`, the lookup `Resource` and `ResourceFor` return without
panic; a name that no element has is reported by the lookups as the nil result; the
resources are live again after `ResourceFor`; and `ResourceFor` on the nil argument
panics. -/
theorem lookups_total (st : State) (name : String) (s : Ptr) (svc : ServiceExpr)
    (hr : responsesValid st.heap st.root.Responses = true)
    (hd : responsesValid st.heap st.root.DefaultResponses = true)
    (hv : resourcesValid st = true) (hs : deref st.heap.services s = .ok svc) :
    (∃ r, RootExpr.Response st name = .ok r ∧
      ((∀ q ∈ st.root.Responses, respName st.heap q ≠ .ok name) → r = none)) ∧
    (∃ r, RootExpr.DefaultResponse st name = .ok r ∧
      ((∀ q ∈ st.root.DefaultResponses, respName st.heap q ≠ .ok name) → r = none)) ∧
    (∃ r, RootExpr.Resource st name = .ok r ∧
      ((∀ q ∈ st.root.Resources, resName st.heap q ≠ .ok name) → r = none)) ∧
    (∃ a st1, RootExpr.ResourceFor st s = .ok (some a, st1) ∧ resourcesValid st1 = true) ∧
    RootExpr.ResourceFor st none = .error .nilDereference := by
  refine ⟨rangeByName_total _ name _ ((responsesValid_iff _ _).1 hr),
    rangeByName_total _ name _ ((responsesValid_iff _ _).1 hd),
    rangeByName_total _ name _ ((resourcesValid_iff st).1 hv), ?_, rfl⟩
  rcases ResourceFor_cases st s svc hv hs with ⟨a, -, -, h⟩ | ⟨-, h⟩
  · exact ⟨a, st, h, hv⟩
  · exact ⟨_, _, h, resourcesValid_after_create st s svc hv hs⟩

/-- Witness of the amended C14 on the state holding one resource. -/
theorem lookups_total_witness :
    responsesValid sampleOne.heap sampleOne.root.Responses = true ∧
    responsesValid sampleOne.heap sampleOne.root.DefaultResponses = true ∧
    resourcesValid sampleOne = true ∧
    deref sampleOne.heap.services (some 2) = .ok ⟨"y", [some 8, some 9]⟩ ∧
    (∃ r, RootExpr.Response sampleOne "z" = .ok r ∧
      ((∀ q ∈ sampleOne.root.Responses, respName sampleOne.heap q ≠ .ok "z") → r = none)) ∧
    (∃ r, RootExpr.DefaultResponse sampleOne "z" = .ok r ∧
      ((∀ q ∈ sampleOne.root.DefaultResponses, respName sampleOne.heap q ≠ .ok "z") →
        r = none)) ∧
    (∃ r, RootExpr.Resource sampleOne "z" = .ok r ∧
      ((∀ q ∈ sampleOne.root.Resources, resName sampleOne.heap q ≠ .ok "z") → r = none)) ∧
    (∃ a st1, RootExpr.ResourceFor sampleOne (some 2) = .ok (some a, st1) ∧
      resourcesValid st1 = true) ∧
    RootExpr.ResourceFor sampleOne none = .error .nilDereference :=
  ⟨by decide, by decide, by decide, by decide,
    lookups_total sampleOne "z" (some 2) ⟨"y", [some 8, some 9]⟩
      (by decide) (by decide) (by decide) (by decide)⟩

/-- A live resource pointer reads the same cell after resource cells are appended. -/
theorem deref_resources_frame (h : Heap) (tl : List ResourceExpr) (p : Ptr) (n : String)
    (hn : resName h p = .ok n) :
    deref (h.resources ++ tl) p = deref h.resources p := by
  cases p with
  | none => exact absurd hn (resName_nil h n)
  | some a =>
    have hlt := resName_lt h a n hn
    simp only [deref]
    rw [List.getElem?_append_left hlt]

/-- C15: `Resources` is append-only under `ResourceFor`. On a root whose resources
are live and for a live service descriptor, the call returns; the `Resources` sequence
after it is the one before it followed by at most one element, so the length grows by
0 or 1 and every element keeps its index; and every resource cell that was in
`Resources`, with its `Actions`, and every action cell allocated before the call read
the same after it. -/
theorem ResourceFor_append_only (st : State) (s : Ptr) (svc : ServiceExpr)
    (hv : resourcesValid st = true) (hs : deref st.heap.services s = .ok svc) :
    ∃ p st1 tl, RootExpr.ResourceFor st s = .ok (p, st1) ∧
      st1.root.Resources = st.root.Resources ++ tl ∧ tl.length ≤ 1 ∧
      (st1.root.Resources.length = st.root.Resources.length ∨
        st1.root.Resources.length = st.root.Resources.length + 1) ∧
      (∀ (i : Nat) (q : Ptr), st.root.Resources[i]? = some q →
        st1.root.Resources[i]? = some q) ∧
      (∀ q ∈ st.root.Resources, deref st1.heap.resources q = deref st.heap.resources q) ∧
      (∀ c : Nat, c < st.heap.actions.length →
        st1.heap.actions[c]? = st.heap.actions[c]?) := by
  rcases ResourceFor_cases st s svc hv hs with ⟨a, -, -, h⟩ | ⟨-, h⟩
  · exact ⟨some a, st, [], h, by simp, by simp, Or.inl rfl, fun _ _ hq => hq,
      fun _ _ => rfl, fun _ _ => rfl⟩
  · refine ⟨_, _, [some st.heap.resources.length], h, rfl, by simp, Or.inr (by
      simp [stateAfterCreate]), ?_, ?_, ?_⟩
    · intro i q hq
      have hi : i < st.root.Resources.length := by
        rcases List.getElem?_eq_some.1 hq with ⟨hi, -⟩
        exact hi
      show (st.root.Resources ++ [some st.heap.resources.length])[i]? = some q
      rw [List.getElem?_append_left hi, hq]
    · intro q hq
      obtain ⟨n, hn⟩ := (resourcesValid_iff st).1 hv q hq
      exact deref_resources_frame st.heap _ q n hn
    · intro c hc
      exact List.getElem?_append_left hc

/-- Witness of C15 on the state holding one resource, for a service of a new name. -/
theorem ResourceFor_append_only_witness :
    resourcesValid sampleOne = true ∧
    deref sampleOne.heap.services (some 2) = .ok ⟨"y", [some 8, some 9]⟩ ∧
    ∃ p st1 tl, RootExpr.ResourceFor sampleOne (some 2) = .ok (p, st1) ∧
      st1.root.Resources = sampleOne.root.Resources ++ tl ∧ tl.length ≤ 1 ∧
      (st1.root.Resources.length = sampleOne.root.Resources.length ∨
        st1.root.Resources.length = sampleOne.root.Resources.length + 1) ∧
      (∀ (i : Nat) (q : Ptr), sampleOne.root.Resources[i]? = some q →
        st1.root.Resources[i]? = some q) ∧
      (∀ q ∈ sampleOne.root.Resources,
        deref st1.heap.resources q = deref sampleOne.heap.resources q) ∧
      (∀ c : Nat, c < sampleOne.heap.actions.length →
        st1.heap.actions[c]? = sampleOne.heap.actions[c]?) :=
  ⟨by decide, by decide,
    ResourceFor_append_only sampleOne (some 2) ⟨"y", [some 8, some 9]⟩ (by decide) (by decide)⟩

/-- C17: on a root whose resources are live and for a live service descriptor `S`,
right after `res = ResourceFor(S)` the lookup `Resource(S.Name)` returns that same
`res`, which is not nil, and the name of `res` is `S.Name`. -/
theorem Resource_after_ResourceFor (st : State) (s : Ptr) (svc : ServiceExpr)
    (hv : resourcesValid st = true) (hs : deref st.heap.services s = .ok svc) :
    ∃ a st1, RootExpr.ResourceFor st s = .ok (some a, st1) ∧
      RootExpr.Resource st1 svc.Name = .ok (some a) ∧
      resName st1.heap (some a) = .ok svc.Name := by
  rcases ResourceFor_cases st s svc hv hs with ⟨a, h1, h2, h3⟩ | ⟨hno, h⟩
  · exact ⟨a, st, h3, h2, (FirstNamed_mem h1).2⟩
  · exact ⟨_, _, h, Resource_after_create st s svc hv hs hno, resName_created st s svc hs⟩

/-- Witness of C17 on the state holding one resource, for a service of a new name. -/
theorem Resource_after_ResourceFor_witness :
    resourcesValid sampleOne = true ∧
    deref sampleOne.heap.services (some 2) = .ok ⟨"y", [some 8, some 9]⟩ ∧
    ∃ a st1, RootExpr.ResourceFor sampleOne (some 2) = .ok (some a, st1) ∧
      RootExpr.Resource st1 "y" = .ok (some a) ∧
      resName st1.heap (some a) = .ok "y" :=
  ⟨by decide, by decide,
    Resource_after_ResourceFor sampleOne (some 2) ⟨"y", [some 8, some 9]⟩
      (by decide) (by decide)⟩

/-- C18: `ResourceFor` changes no field of the root other than `Resources`. On a root
whose resources are live and for a live service descriptor, the call returns and
`Path`, `Params`, `Schemes`, `Consumes`, `Produces`, `Responses`, `DefaultResponses`
and the response cells are the same after it as before, so `Response(name)` and
`DefaultResponse(name)` return the same result for every name. -/
theorem ResourceFor_frame (st : State) (s : Ptr) (svc : ServiceExpr)
    (hv : resourcesValid st = true) (hs : deref st.heap.services s = .ok svc) :
    ∃ p st1, RootExpr.ResourceFor st s = .ok (p, st1) ∧
      st1.root.Path = st.root.Path ∧ st1.root.Params = st.root.Params ∧
      st1.root.Schemes = st.root.Schemes ∧ st1.root.Consumes = st.root.Consumes ∧
      st1.root.Produces = st.root.Produces ∧ st1.root.Responses = st.root.Responses ∧
      st1.root.DefaultResponses = st.root.DefaultResponses ∧
      st1.heap.responses = st.heap.responses ∧
      (∀ name, RootExpr.Response st1 name = RootExpr.Response st name) ∧
      (∀ name, RootExpr.DefaultResponse st1 name = RootExpr.DefaultResponse st name) := by
  rcases ResourceFor_cases st s svc hv hs with ⟨a, -, -, h⟩ | ⟨-, h⟩
  · exact ⟨_, _, h, rfl, rfl, rfl, rfl, rfl, rfl, rfl, rfl, fun _ => rfl, fun _ => rfl⟩
  · exact ⟨_, _, h, rfl, rfl, rfl, rfl, rfl, rfl, rfl, rfl, fun _ => rfl, fun _ => rfl⟩

/-- Witness of C18 on a state with responses of both kinds. -/
theorem ResourceFor_frame_witness :
    resourcesValid sampleFull = true ∧
    deref sampleFull.heap.services (some 2) = .ok ⟨"y", [some 8, some 9]⟩ ∧
    ∃ p st1, RootExpr.ResourceFor sampleFull (some 2) = .ok (p, st1) ∧
      st1.root.Path = sampleFull.root.Path ∧ st1.root.Params = sampleFull.root.Params ∧
      st1.root.Schemes = sampleFull.root.Schemes ∧
      st1.root.Consumes = sampleFull.root.Consumes ∧
      st1.root.Produces = sampleFull.root.Produces ∧
      st1.root.Responses = sampleFull.root.Responses ∧
      st1.root.DefaultResponses = sampleFull.root.DefaultResponses ∧
      st1.heap.responses = sampleFull.heap.responses ∧
      (∀ name, RootExpr.Response st1 name = RootExpr.Response sampleFull name) ∧
      (∀ name, RootExpr.DefaultResponse st1 name =
        RootExpr.DefaultResponse sampleFull name) :=
  ⟨by decide, by decide,
    ResourceFor_frame sampleFull (some 2) ⟨"y", [some 8, some 9]⟩ (by decide) (by decide)⟩

/-! ## Sequences of calls of ResourceFor -/

theorem resName_eq_svcName (h : Heap) (p : Ptr) (n : String) (hn : resName h p = .ok n) :
    resName h p = svcName h.services (wrappedOf h p) := by
  simp only [resName, svcName, wrappedOf] at hn ⊢
  cases hd : deref h.resources p with
  | error e => simp [hd] at hn
  | ok r => rfl

theorem svcName_ok (services : List ServiceExpr) (s : Ptr) (svc : ServiceExpr)
    (hs : deref services s = .ok svc) : svcName services s = .ok svc.Name := by
  simp [svcName, hs]

/-- On live resources, the names of `Resources` are the names of the wrapped services. -/
theorem names_eq_map_wrapped (st : State) (hv : resourcesValid st = true) :
    st.root.Resources.map (resName st.heap) =
      (st.root.Resources.map (wrappedOf st.heap)).map (svcName st.heap.services) := by
  rw [List.map_map]
  apply List.map_congr_left
  intro p hp
  obtain ⟨n, hn⟩ := (resourcesValid_iff st).1 hv p hp
  exact resName_eq_svcName st.heap p n hn

/-- One call, seen on the sequence of wrapped services: nothing changes when the name
of the service is already there, otherwise the service is appended. -/
theorem ResourceFor_wrapped (st : State) (s : Ptr) (svc : ServiceExpr)
    (hv : resourcesValid st = true) (hs : deref st.heap.services s = .ok svc) :
    ∃ p st1, RootExpr.ResourceFor st s = .ok (p, st1) ∧
      st1.heap.services = st.heap.services ∧ resourcesValid st1 = true ∧
      st1.root.Resources.map (wrappedOf st1.heap) =
        if svcName st.heap.services s ∈
            (st.root.Resources.map (wrappedOf st.heap)).map (svcName st.heap.services)
        then st.root.Resources.map (wrappedOf st.heap)
        else st.root.Resources.map (wrappedOf st.heap) ++ [s] := by
  have hnames := names_eq_map_wrapped st hv
  have hk := svcName_ok st.heap.services s svc hs
  rcases ResourceFor_cases st s svc hv hs with ⟨a, h1, -, h⟩ | ⟨hno, h⟩
  · refine ⟨_, _, h, rfl, hv, ?_⟩
    have hmem : svcName st.heap.services s ∈
        (st.root.Resources.map (wrappedOf st.heap)).map (svcName st.heap.services) := by
      rw [← hnames, hk]
      exact List.mem_map.2 ⟨some a, (FirstNamed_mem h1).1, (FirstNamed_mem h1).2⟩
    rw [if_pos hmem]
  · refine ⟨_, _, h, rfl, resourcesValid_after_create st s svc hv hs, ?_⟩
    have hmem : ¬ svcName st.heap.services s ∈
        (st.root.Resources.map (wrappedOf st.heap)).map (svcName st.heap.services) := by
      rw [← hnames, hk]
      intro hc
      obtain ⟨q, hq, hqn⟩ := List.mem_map.1 hc
      exact hno q hq hqn
    rw [if_neg hmem]
    show List.map _ (st.root.Resources ++ [some st.heap.resources.length]) = _
    rw [List.map_append]
    congr 1
    · apply List.map_congr_left
      intro q hq
      obtain ⟨n, hn⟩ := (resourcesValid_iff st).1 hv q hq
      simp only [wrappedOf]
      have := deref_resources_frame st.heap
        [{ ServiceExpr := s, Actions := (List.range svc.Endpoints.length).map
            (fun k => some (st.heap.actions.length + k)) }] q n hn
      simp only [stateAfterCreate]
      rw [this]
    · simp [wrappedOf, deref, stateAfterCreate]

theorem filter_firstOfKey_seen {κ : Type} [DecidableEq κ] (key : Ptr → κ) (s : Ptr)
    (l : List Ptr) (seen : List κ) (hs : key s ∈ seen) :
    (s :: l.filter (fun t => decide (key t ≠ key s))).filter
        (fun t => decide (key t ∉ seen)) =
      l.filter (fun t => decide (key t ∉ seen)) := by
  rw [List.filter_cons_of_neg (by simpa using hs), List.filter_filter]
  apply List.filter_congr
  intro t _
  by_cases ht : key t ∈ seen
  · simp [ht]
  · have : key t ≠ key s := fun hc => ht (hc ▸ hs)
    simp [ht, this]

theorem filter_firstOfKey_new {κ : Type} [DecidableEq κ] (key : Ptr → κ) (s : Ptr)
    (l : List Ptr) (seen : List κ) (hs : key s ∉ seen) :
    (s :: l.filter (fun t => decide (key t ≠ key s))).filter
        (fun t => decide (key t ∉ seen)) =
      s :: l.filter (fun t => decide (key t ∉ seen ++ [key s])) := by
  rw [List.filter_cons_of_pos (by simpa using hs), List.filter_filter]
  congr 1
  apply List.filter_congr
  intro t _
  by_cases ht : key t ∈ seen <;> by_cases hk : key t = key s <;> simp [ht, hk]

/-- The calls on live services all return, and the sequence of wrapped services grows
by the services that are the first of a name not yet there. -/
theorem callAll_wrapped :
    ∀ (ss : List Ptr) (st : State), resourcesValid st = true →
      (∀ s ∈ ss, (deref st.heap.services s).isOk = true) →
      ∃ st1, callAll st ss = .ok st1 ∧ st1.heap.services = st.heap.services ∧
        resourcesValid st1 = true ∧
        st1.root.Resources.map (wrappedOf st1.heap) =
          st.root.Resources.map (wrappedOf st.heap) ++
            (firstOfKey (svcName st.heap.services) ss).filter
              (fun t => decide (svcName st.heap.services t ∉
                (st.root.Resources.map (wrappedOf st.heap)).map (svcName st.heap.services)))
  | [], st, hv, _ => ⟨st, rfl, rfl, hv, by simp [firstOfKey]⟩
  | s :: rest, st, hv, hss => by
    obtain ⟨svc, hs⟩ := (isOk_iff _).1 (hss s (by simp))
    obtain ⟨p, st1, h, hsv, hv1, hw⟩ := ResourceFor_wrapped st s svc hv hs
    have hrest : ∀ t ∈ rest, (deref st1.heap.services t).isOk = true := by
      intro t ht; rw [hsv]; exact hss t (by simp [ht])
    obtain ⟨st2, h2, hsv2, hv2, hw2⟩ := callAll_wrapped rest st1 hv1 hrest
    refine ⟨st2, by simp [callAll, h, h2], by rw [hsv2, hsv], hv2, ?_⟩
    rw [hw2, hsv, hw]
    by_cases hmem : svcName st.heap.services s ∈
        (st.root.Resources.map (wrappedOf st.heap)).map (svcName st.heap.services)
    · rw [if_pos hmem]
      simp only [firstOfKey]
      rw [filter_firstOfKey_seen _ s _ _ hmem]
    · rw [if_neg hmem]
      simp only [firstOfKey]
      rw [filter_firstOfKey_new _ s _ _ hmem, List.map_append, List.append_assoc]
      rfl

theorem map_firstOfKey {κ : Type} [DecidableEq κ] (key : Ptr → κ) (ss : List Ptr) :
    (firstOfKey key ss).map key = firstOccurrences (ss.map key) := by
  induction ss with
  | nil => rfl
  | cons s ss ih =>
    simp only [firstOfKey, firstOccurrences, List.map_cons]
    rw [← ih, List.filter_map]
    rfl

/-- An element kept by `firstOfKey` is the first of `ss` with its key. -/
theorem find_firstOfKey {κ : Type} [DecidableEq κ] (key : Ptr → κ) (ss : List Ptr) :
    ∀ w ∈ firstOfKey key ss, ss.find? (fun t => decide (key t = key w)) = some w := by
  induction ss with
  | nil => intro w hw; simp [firstOfKey] at hw
  | cons s ss ih =>
    intro w hw
    simp only [firstOfKey, List.mem_cons, List.mem_filter] at hw
    rcases hw with rfl | ⟨hw, hne⟩
    · simp
    · have hne' : key w ≠ key s := by simpa using hne
      have : ¬ key s = key w := fun hc => hne' hc.symm
      rw [List.find?_cons_of_neg _ (by simpa using this)]
      exact ih w hw

/-- C16: starting from the initial state, the calls of `ResourceFor` on the live
services `s_1, ..., s_n`, in that order, all return; the names of the `Resources`
sequence after them are the names of `s_1, ..., s_n` with later repeats removed, in
the order of first occurrence; and every resource of the sequence wraps the first
service of the call sequence that has its name. -/
theorem callAll_first_occurrences (services : List ServiceExpr)
    (responses : List HTTPResponseExpr) (ss : List Ptr)
    (hss : ∀ s ∈ ss, (deref services s).isOk = true) :
    ∃ st, callAll (initState services responses) ss = .ok st ∧
      st.root.Resources.map (resName st.heap) =
        firstOccurrences (ss.map (svcName services)) ∧
      (∀ p ∈ st.root.Resources, ∃ r, deref st.heap.resources p = .ok r ∧
        ss.find? (fun t => decide (svcName services t = resName st.heap p)) =
          some r.ServiceExpr) := by
  obtain ⟨st, h, hsv, hv, hw⟩ := callAll_wrapped ss (initState services responses) rfl hss
  have hsv' : st.heap.services = services := hsv
  have hw' : st.root.Resources.map (wrappedOf st.heap) =
      firstOfKey (svcName services) ss := by
    rw [hw]
    simp [initState, Root]
  refine ⟨st, h, ?_, ?_⟩
  · rw [names_eq_map_wrapped st hv, hw', hsv', map_firstOfKey]
  · intro p hp
    obtain ⟨n, hn⟩ := (resourcesValid_iff st).1 hv p hp
    have hname := resName_eq_svcName st.heap p n hn
    cases hd : deref st.heap.resources p with
    | error e => simp [resName, hd] at hn
    | ok r =>
      refine ⟨r, rfl, ?_⟩
      have hwp : wrappedOf st.heap p = r.ServiceExpr := by simp [wrappedOf, hd]
      have hmem : r.ServiceExpr ∈ firstOfKey (svcName services) ss := by
        rw [← hw', ← hwp]
        exact List.mem_map.2 ⟨p, hp, rfl⟩
      rw [hname, hwp, hsv']
      exact find_firstOfKey (svcName services) ss _ hmem

/-- Witness of C16: four calls on the sample services, the names being `x`, `x`, `y`
and `x` again. -/
theorem callAll_first_occurrences_witness :
    (∀ s ∈ [some 0, some 1, some 2, some 0], (deref sampleServices s).isOk = true) ∧
    ∃ st, callAll (initState sampleServices []) [some 0, some 1, some 2, some 0] = .ok st ∧
      st.root.Resources.map (resName st.heap) =
        firstOccurrences ([some 0, some 1, some 2, some 0].map (svcName sampleServices)) ∧
      (∀ p ∈ st.root.Resources, ∃ r, deref st.heap.resources p = .ok r ∧
        [some 0, some 1, some 2, some 0].find?
            (fun t => decide (svcName sampleServices t = resName st.heap p)) =
          some r.ServiceExpr) :=
  ⟨by decide, callAll_first_occurrences sampleServices [] [some 0, some 1, some 2, some 0]
    (by decide)⟩

/-! ### Concatenation of paths -/

theorem takeWhile_append_of_head (p : Char → Bool) (l q : List Char)
    (hq : ∀ c, q.head? = some c → p c = false) :
    (l ++ q).takeWhile p = l.takeWhile p := by
  induction l with
  | nil =>
    match q, hq with
    | [], _ => rfl
    | c :: cs, hq => simp [List.takeWhile_cons, hq c rfl]
  | cons x xs ih =>
    by_cases hx : p x = true
    · simp [List.takeWhile_cons, hx, ih]
    · simp [List.takeWhile_cons, hx]

theorem startsParam_append (c : Char) (cs q : List Char)
    (hq : ∀ a, q.head? = some a → a = '/') :
    startsParam (c :: (cs ++ q)) = startsParam (c :: cs) := by
  match cs with
  | [] =>
    match q, hq with
    | [], _ => rfl
    | [a], hq =>
      rfl
    | a :: b :: _, hq =>
      have ha := hq a rfl
      subst ha
      simp [startsParam]
  | [d] =>
    match q, hq with
    | [], _ => rfl
    | a :: _, hq =>
      have ha := hq a rfl
      subst ha
      have : isIdentChar '/' = false := by decide
      simp [startsParam, this]
  | d :: x :: ys => rfl

theorem specFrom_cons (c : Char) (cs : List Char) :
    specFrom (c :: cs) =
      (if startsParam (c :: cs) then [String.mk ((cs.drop 1).takeWhile isIdentChar)]
        else []) ++ specFrom cs := rfl

/-- The reference result distributes over a concatenation whose right part is empty
or begins with a slash. -/
theorem specFrom_append (p q : List Char) (hq : ∀ a, q.head? = some a → a = '/') :
    specFrom (p ++ q) = specFrom p ++ specFrom q := by
  induction p with
  | nil => rfl
  | cons c cs ih =>
    have hq' : ∀ a, q.head? = some a → isIdentChar a = false := by
      intro a ha
      rw [hq a ha]
      decide
    have hname : startsParam (c :: cs) = true →
        ((cs ++ q).drop 1).takeWhile isIdentChar = (cs.drop 1).takeWhile isIdentChar := by
      intro hp
      match cs, hp with
      | [], hp => simp [startsParam] at hp
      | [_], hp => simp [startsParam] at hp
      | d :: x :: ys, _ =>
        exact takeWhile_append_of_head isIdentChar (x :: ys) q hq'
    rw [List.cons_append, specFrom_cons, specFrom_cons, startsParam_append c cs q hq, ih,
      List.append_assoc]
    by_cases hp : startsParam (c :: cs) = true
    · rw [hname hp]
    · simp [hp]

/-- C19: for every string `p` and every string `q` that is empty or begins with a
slash, `ExtractWildcards(p ++ q)` is `ExtractWildcards(p)` followed by
`ExtractWildcards(q)`; and this fails for some `q` that does not begin with a slash:
with `p = "/:a"` and `q = "b"` the result is `["ab"]` while the two parts give
`["a"]` and no name. -/
theorem ExtractWildcards_append (p q : String) (hq : q = "" ∨ q.data.head? = some '/') :
    (∃ wp wq, ExtractWildcards p = .ok wp ∧ ExtractWildcards q = .ok wq ∧
      ExtractWildcards (p ++ q) = .ok (wp ++ wq)) ∧
    (ExtractWildcards ("/:a" ++ "b") = .ok ["ab"] ∧ ExtractWildcards "/:a" = .ok ["a"] ∧
      ExtractWildcards "b" = .ok []) := by
  refine ⟨⟨specFrom p.data, specFrom q.data, ExtractWildcards_eq_specFrom p,
    ExtractWildcards_eq_specFrom q, ?_⟩, by decide, by decide, by decide⟩
  rw [ExtractWildcards_eq_specFrom, String.data_append]
  congr 1
  apply specFrom_append
  intro a ha
  rcases hq with rfl | hq
  · simp at ha
  · rw [hq] at ha
    exact (Option.some.inj ha).symm

/-- Witness of C19 with a right part that begins with a slash. -/
theorem ExtractWildcards_append_witness :
    ("/:y/z" = "" ∨ "/:y/z".data.head? = some '/') ∧
    (∃ wp wq, ExtractWildcards "/a/:x" = .ok wp ∧ ExtractWildcards "/:y/z" = .ok wq ∧
      ExtractWildcards ("/a/:x" ++ "/:y/z") = .ok (wp ++ wq)) ∧
    (ExtractWildcards ("/:a" ++ "b") = .ok ["ab"] ∧ ExtractWildcards "/:a" = .ok ["a"] ∧
      ExtractWildcards "b" = .ok []) :=
  ⟨by decide, ExtractWildcards_append "/a/:x" "/:y/z" (by decide)⟩

end Goa
